import Mathlib

/-!
Verification of the chess rules engine and UCI client of `chess_arena.py`.

The `Board` class (board representation, move generation, legality filtering,
FEN serialization, SAN rendering, game-end classification) is embedded as pure
Lean functions over an explicit `Board` record.  Python strings are modelled
as `String` / `List Char`; the 8×8 board is a `List (List Char)` exactly as in
the source ('.' = empty, uppercase = White, lowercase = Black); board
coordinates are `Int` (mirroring Python's signed arithmetic such as
`8 - int(uci[1])`).  Mutating methods become functions returning the new
record; an exception-raising method returns `Except String _`.
-/

set_option maxRecDepth 4000

/-! ### Character / string helpers (Python `str` operations used by the source) -/

/-- Digit character of a value < 10, as Python `str(d)` for a single digit. -/
def digitChar (d : Nat) : Char := Char.ofNat (48 + d)

/-- Fuel-driven decimal rendering; `natReprFuel f n acc` prepends the decimal
digits of `n` to `acc` (fuel `f ≥` number of digits of `n`). -/
def natReprFuel : Nat → Nat → List Char → List Char
  | 0, _, acc => acc
  | f+1, n, acc =>
    let d := digitChar (n % 10)
    if n / 10 = 0 then d :: acc else natReprFuel f (n / 10) (d :: acc)

/-- Python `str(n)` for a natural number, as a character list. -/
def natRepr (n : Nat) : List Char := natReprFuel (n + 1) n []

/-- Python `str(i)` for an integer, as a character list. -/
def intRepr (i : Int) : List Char :=
  if i < 0 then '-' :: natRepr i.natAbs else natRepr i.toNat

/-- Python `int(s)` on a string of decimal digits (folds the digits). -/
def parseNat (l : List Char) : Nat :=
  l.foldl (fun acc c => acc * 10 + (c.toNat - 48)) 0

/-- Python `str.split()` (split on whitespace, dropping empty tokens):
accumulator variant. -/
def pySplitAux : List Char → List Char → List (List Char)
  | [], cur => if cur = [] then [] else [cur.reverse]
  | c :: cs, cur =>
    if c.isWhitespace then
      (if cur = [] then pySplitAux cs [] else cur.reverse :: pySplitAux cs [])
    else pySplitAux cs (c :: cur)

/-- Python `str.split()` on a character list. -/
def pySplit (l : List Char) : List (List Char) := pySplitAux l []

/-- Python `str.split('/')` (keeps empty tokens): accumulator variant. -/
def splitSlashAux : List Char → List Char → List (List Char)
  | [], cur => [cur.reverse]
  | c :: cs, cur =>
    if c = '/' then cur.reverse :: splitSlashAux cs []
    else splitSlashAux cs (c :: cur)

/-- Python `str.split('/')` on a character list. -/
def splitSlash (l : List Char) : List (List Char) := splitSlashAux l []

/-- Python `'/'.join(rows)`. -/
def joinSlash : List (List Char) → List Char
  | [] => []
  | [r] => r
  | r :: rs => r ++ '/' :: joinSlash rs

/-- Python `' '.join(parts)`. -/
def joinSpace : List (List Char) → List Char
  | [] => []
  | [r] => r
  | r :: rs => r ++ ' ' :: joinSpace rs

/-- Python `str.strip()`. -/
def pyStrip (l : List Char) : List Char :=
  ((l.dropWhile Char.isWhitespace).reverse.dropWhile Char.isWhitespace).reverse

/-! ### Board data model (`Board.__init__` fields) -/

/-- A move as generated by `Board._pseudo`: Python tuple
`(from_row, from_col, to_row, to_col, promo)`. -/
abbrev Move := Int × Int × Int × Int × Option Char

/-- The `Board` object of `chess_arena.py` (fields of `Board.__init__`). -/
structure Board where
  board : List (List Char)
  turn : String
  castling : String
  ep : String
  halfmove : Nat
  fullmove : Nat
  move_history : List (String × String × String)
  pos_history : List (String × Nat)
  cap_white : List Char
  cap_black : List Char
deriving Repr, DecidableEq

/-- `START_FEN` constant of the source. -/
def START_FEN : String := "rnbqkbnr/pppppppp/8/8/8/8/PPPPPPPP/RNBQKBNR w KQkq - 0 1"

def ROOK_D : List (Int × Int) := [(1,0),(-1,0),(0,1),(0,-1)]
def BISHOP_D : List (Int × Int) := [(1,1),(1,-1),(-1,1),(-1,-1)]
def QUEEN_D : List (Int × Int) := ROOK_D ++ BISHOP_D
def KNIGHT_D : List (Int × Int) := [(2,1),(2,-1),(-2,1),(-2,-1),(1,2),(1,-2),(-1,2),(-1,-2)]
def KING_D : List (Int × Int) := ROOK_D ++ BISHOP_D

/-- `valid(r, c)` of the source. -/
def valid (r c : Int) : Bool := decide (0 ≤ r ∧ r < 8 ∧ 0 ≤ c ∧ c < 8)

/-- Python `board[r][c]` on the nested-list board (all source reads are at
valid coordinates; out-of-range reads default to `'.'`). -/
def cellB (bd : List (List Char)) (r c : Int) : Char :=
  (bd.getD r.toNat []).getD c.toNat '.'

/-- Python `board[r][c] = ch`. -/
def setCell (bd : List (List Char)) (r c : Int) (ch : Char) : List (List Char) :=
  bd.set r.toNat ((bd.getD r.toNat []).set c.toNat ch)

/-- `self.board[r][c]` on a `Board`. -/
def cell (b : Board) (r c : Int) : Char := cellB b.board r c

/-- `Board.is_w`: `p not in ('.','') and p.isupper()`. -/
def is_w (p : Char) : Bool := !(p == '.') && p.isUpper

/-- `Board.is_b`: `p not in ('.','') and p.islower()`. -/
def is_b (p : Char) : Bool := !(p == '.') && p.isLower

/-- `Board.same`. -/
def same (p1 p2 : Char) : Bool := (is_w p1 && is_w p2) || (is_b p1 && is_b p2)

/-- `Board.enemy`. -/
def enemy (p : Char) (turn : String) : Bool :=
  if turn = "w" then is_b p else is_w p

/-! ### FEN serialization (`Board._load_fen` / `Board.to_fen`) -/

/-- Row decoding in `_load_fen`: digits run-length-expand to `'.'`. -/
def decRow (s : List Char) : List Char :=
  s.flatMap (fun ch => if ch.isDigit then List.replicate (ch.toNat - 48) '.' else [ch])

/-- Row encoding in `to_fen` (run-length-encode `'.'` cells); `e` is the
pending count of empty squares. -/
def encRow : List Char → Nat → List Char
  | [], e => if e ≠ 0 then natRepr e else []
  | c :: cs, e =>
    if c = '.' then encRow cs (e + 1)
    else (if e ≠ 0 then natRepr e else []) ++ c :: encRow cs 0

/-- `Board._load_fen` (sets the six FEN-derived fields, leaves history alone). -/
def load_fen (b : Board) (fen : String) : Board :=
  let parts := pySplit fen.data
  { b with
    board := (splitSlash (parts.getD 0 [])).map decRow
    turn := if parts.length > 1 then String.mk (parts.getD 1 []) else "w"
    castling := if parts.length > 2 then String.mk (parts.getD 2 []) else "-"
    ep := if parts.length > 3 then String.mk (parts.getD 3 []) else "-"
    halfmove := if parts.length > 4 then parseNat (parts.getD 4 []) else 0
    fullmove := if parts.length > 5 then parseNat (parts.getD 5 []) else 1 }

/-- `Board.to_fen`. -/
def to_fen (b : Board) : String :=
  let rows := b.board.map (fun row => encRow row 0)
  let c := if b.castling = "" then "-" else b.castling
  String.mk (joinSlash rows ++ ' ' :: b.turn.data ++ ' ' :: c.data ++ ' ' :: b.ep.data
    ++ ' ' :: natRepr b.halfmove ++ ' ' :: natRepr b.fullmove)

/-- `Board._pos_key`: first four space-separated FEN fields. -/
def pos_key (b : Board) : String :=
  String.mk (joinSpace ((pySplit (to_fen b).data).take 4))

/-- The freshly-constructed `Board()` before `_load_fen` runs. -/
def initBoard : Board :=
  { board := [], turn := "w", castling := "KQkq", ep := "-", halfmove := 0,
    fullmove := 1, move_history := [], pos_history := [], cap_white := [],
    cap_black := [] }

/-- `Board()` — the standard starting position. -/
def Board.new : Board := load_fen initBoard START_FEN

/-! ### Attack detection (`Board.find_king`, `Board.is_attacked`, `Board.in_check`) -/

/-- Scan one row for the king character, returning its column. -/
def findInRow (k : Char) : List Char → Int → Option Int
  | [], _ => none
  | x :: xs, c => if x = k then some c else findInRow k xs (c + 1)

/-- Scan the rows for the king character, returning `(row, col)`. -/
def findInRows (k : Char) : List (List Char) → Int → Option (Int × Int)
  | [], _ => none
  | row :: rest, r =>
    match findInRow k row 0 with
    | some c => some (r, c)
    | none => findInRows k rest (r + 1)

/-- `Board.find_king` (row-major scan for `'K'` / `'k'`). -/
def find_king (b : Board) (turn : String) : Option (Int × Int) :=
  let k := if turn = "w" then 'K' else 'k'
  findInRows k b.board 0

/-- The `has` closure of `is_attacked`. -/
def hasSide (p : Char) (by_ : String) : Bool :=
  if by_ = "w" then is_w p else is_b p

/-- The sliding-ray loop of `is_attacked`: walk from `(nr, nc)` in direction
`(dr, dc)` while on the board; a first occupant attacks iff its lowercase kind
is in `chars` and it belongs to `by_`.  Fuel 8 bounds the walk (any ray leaves
the 8×8 board within 8 steps). -/
def rayAttacks (bd : List (List Char)) (chars : List Char) (by_ : String)
    (dr dc : Int) : Nat → Int → Int → Bool
  | 0, _, _ => false
  | fuel+1, nr, nc =>
    if valid nr nc then
      let p := cellB bd nr nc
      if p ≠ '.' then decide (p.toLower ∈ chars) && hasSide p by_
      else rayAttacks bd chars by_ dr dc fuel (nr + dr) (nc + dc)
    else false

/-- `Board.is_attacked(r, c, by)`. -/
def is_attacked (b : Board) (r c : Int) (by_ : String) : Bool :=
  (KNIGHT_D.any (fun dd =>
    let nr := r + dd.1
    let nc := c + dd.2
    valid nr nc && (cellB b.board nr nc).toLower == 'n' && hasSide (cellB b.board nr nc) by_)) ||
  ([(ROOK_D, ['q','r']), (BISHOP_D, ['q','b'])].any (fun dcs =>
    dcs.1.any (fun dd => rayAttacks b.board dcs.2 by_ dd.1 dd.2 8 (r + dd.1) (c + dd.2)))) ||
  (KING_D.any (fun dd =>
    let nr := r + dd.1
    let nc := c + dd.2
    valid nr nc && (cellB b.board nr nc).toLower == 'k' && hasSide (cellB b.board nr nc) by_)) ||
  ((if by_ = "w" then [((1:Int),(-1:Int)),(1,1)] else [(-1,-1),(-1,1)]).any (fun dd =>
    let nr := r + dd.1
    let nc := c + dd.2
    valid nr nc && (cellB b.board nr nc).toLower == 'p' && hasSide (cellB b.board nr nc) by_))

/-- `Board.in_check(turn)` with an explicit side. -/
def in_checkT (b : Board) (t : String) : Bool :=
  match find_king b t with
  | none => false
  | some k =>
    let opp := if t = "w" then "b" else "w"
    is_attacked b k.1 k.2 opp

/-- `Board.in_check()` (side to move). -/
def in_check (b : Board) : Bool := in_checkT b b.turn

/-! ### Pseudo-legal move generation (`Board._pseudo`) -/

/-- The character at index `i` of `self.ep` (Python `self.ep[i]`; reachable
boards have `ep` of length 2 whenever it is not `"-"`). -/
def epChar (b : Board) (i : Nat) : Char := b.ep.data.getD i ' '

/-- Python `int(self.ep[1])` (digit value). -/
def epRank (b : Board) : Int := (epChar b 1).toNat - 48

/-- Python `ord(self.ep[0]) - ord('a')`. -/
def epCol (b : Board) : Int := (epChar b 0).toNat - 97

/-- The four promotion moves `for pp in 'qrbn'` of the pawn branch. -/
def promoMoves (r c nr nc : Int) : List Move :=
  [(r,c,nr,nc,some 'q'), (r,c,nr,nc,some 'r'), (r,c,nr,nc,some 'b'), (r,c,nr,nc,some 'n')]

/-- Pawn branch of `_pseudo` (forward pushes, then the `dc = -1, 1` captures). -/
def pawnMoves (b : Board) (r c : Int) (turn : String) : List Move :=
  let fwd : Int := if turn = "w" then -1 else 1
  let start_r : Int := if turn = "w" then 6 else 1
  let promo_r : Int := if turn = "w" then 0 else 7
  let nr := r + fwd
  let fwdMoves :=
    if valid nr c && (cellB b.board nr c == '.') then
      if nr = promo_r then promoMoves r c nr c
      else (r,c,nr,c,(none : Option Char)) ::
        (if r = start_r && (cellB b.board (r + 2*fwd) c == '.')
         then [(r,c,r + 2*fwd,c,(none : Option Char))] else [])
    else []
  let caps := ([-1, 1] : List Int).flatMap (fun dc =>
    let nc := c + dc
    if valid nr nc then
      let tgt := cellB b.board nr nc
      let is_cap := enemy tgt turn
      let is_ep := !(b.ep == "-") && (nr == 8 - epRank b) && (nc == epCol b)
      if is_cap || is_ep then
        (if nr = promo_r then promoMoves r c nr nc else [(r,c,nr,nc,(none : Option Char))])
      else []
    else [])
  fwdMoves ++ caps

/-- Knight branch of `_pseudo`. -/
def knightMoves (b : Board) (r c : Int) (piece : Char) : List Move :=
  KNIGHT_D.flatMap (fun dd =>
    let nr := r + dd.1
    let nc := c + dd.2
    if valid nr nc && !(same piece (cellB b.board nr nc))
    then [(r,c,nr,nc,(none : Option Char))] else [])

/-- Sliding-piece ray of `_pseudo` (fuel 8 bounds the walk as for
`rayAttacks`). -/
def rayMoves (b : Board) (r c : Int) (turn : String) (dr dc : Int) :
    Nat → Int → Int → List Move
  | 0, _, _ => []
  | fuel+1, nr, nc =>
    if valid nr nc then
      let t2 := cellB b.board nr nc
      if t2 = '.' then
        (r,c,nr,nc,(none : Option Char)) :: rayMoves b r c turn dr dc fuel (nr + dr) (nc + dc)
      else if enemy t2 turn then [(r,c,nr,nc,(none : Option Char))]
      else []
    else []

/-- Sliding branch of `_pseudo` (bishop / rook / queen). -/
def slideMoves (b : Board) (r c : Int) (turn : String) (dirs : List (Int × Int)) : List Move :=
  dirs.flatMap (fun dd => rayMoves b r c turn dd.1 dd.2 8 (r + dd.1) (c + dd.2))

/-- King branch of `_pseudo` (single steps, then castling generation). -/
def kingMoves (b : Board) (r c : Int) (piece : Char) (turn : String) : List Move :=
  let basic := KING_D.flatMap (fun dd =>
    let nr := r + dd.1
    let nc := c + dd.2
    if valid nr nc && !(same piece (cellB b.board nr nc))
    then [(r,c,nr,nc,(none : Option Char))] else [])
  let opp := if turn = "w" then "b" else "w"
  let kr : Int := if turn = "w" then 7 else 0
  let kc : Int := 4
  let castles :=
    if r = kr ∧ c = kc ∧ ¬ (is_attacked b kr kc opp = true) then
      let ks := if turn = "w" then 'K' else 'k'
      let qs := if turn = "w" then 'Q' else 'q'
      let rp := if turn = "w" then 'R' else 'r'
      let cas := if b.castling = "" then "" else b.castling
      (if cas.data.contains ks &&
          (cellB b.board kr 5 == '.') && (cellB b.board kr 6 == '.') &&
          (cellB b.board kr 7 == rp) &&
          !(is_attacked b kr 5 opp) && !(is_attacked b kr 6 opp)
       then [(r,c,kr,kc+2,(none : Option Char))] else []) ++
      (if cas.data.contains qs &&
          (cellB b.board kr 3 == '.') && (cellB b.board kr 2 == '.') &&
          (cellB b.board kr 1 == '.') && (cellB b.board kr 0 == rp) &&
          !(is_attacked b kr 3 opp) && !(is_attacked b kr 2 opp)
       then [(r,c,kr,kc-2,(none : Option Char))] else [])
    else []
  basic ++ castles

/-- `Board._pseudo(r, c)`. -/
def pseudo (b : Board) (r c : Int) : List Move :=
  let piece := cellB b.board r c
  if piece = '.' then []
  else
    let p := piece.toLower
    let turn := if piece.isUpper then "w" else "b"
    if p = 'p' then pawnMoves b r c turn
    else if p = 'n' then knightMoves b r c piece
    else if p = 'b' then slideMoves b r c turn BISHOP_D
    else if p = 'r' then slideMoves b r c turn ROOK_D
    else if p = 'q' then slideMoves b r c turn QUEEN_D
    else if p = 'k' then kingMoves b r c piece turn
    else []

/-! ### Legal moves and move application -/

/-- En-passant pawn removal step of `_apply_raw`. -/
def bdStage1 (b : Board) (fr fc tr tc : Int) : List (List Char) :=
  if (cellB b.board fr fc).toLower = 'p' ∧ b.ep ≠ "-" then
    if tr = 8 - epRank b ∧ tc = epCol b then setCell b.board fr (epCol b) '.'
    else b.board
  else b.board

/-- Castling rook relocation step of `_apply_raw`. -/
def bdStage2 (b : Board) (fr fc tr tc : Int) : List (List Char) :=
  let bd1 := bdStage1 b fr fc tr tc
  if (cellB b.board fr fc).toLower = 'k' then
    if fc = 4 ∧ tc = 6 then
      setCell (setCell bd1 fr 7 '.') fr 5 (if b.turn = "w" then 'R' else 'r')
    else if fc = 4 ∧ tc = 2 then
      setCell (setCell bd1 fr 0 '.') fr 3 (if b.turn = "w" then 'R' else 'r')
    else bd1
  else bd1

/-- Piece movement step of `_apply_raw`. -/
def bdStage3 (b : Board) (fr fc tr tc : Int) : List (List Char) :=
  setCell (setCell (bdStage2 b fr fc tr tc) tr tc (cellB b.board fr fc)) fr fc '.'

/-- Board-array mutation of `Board._apply_raw`: en-passant pawn removal,
castling rook relocation, the move itself, then promotion. -/
def boardAfter (b : Board) (fr fc tr tc : Int) (promo : Option Char) : List (List Char) :=
  let bd3 := bdStage3 b fr fc tr tc
  match promo with
  | some pp => setCell bd3 tr tc (if b.turn = "w" then pp.toUpper else pp.toLower)
  | none =>
    if (cellB b.board fr fc).toLower = 'p' ∧ (tr = 0 ∨ tr = 7) then
      setCell bd3 tr tc (if b.turn = "w" then 'Q' else 'q')
    else bd3

/-- The rook/capture home-square table of `_apply_raw`
(`[(7,7,'K'),(7,0,'Q'),(0,7,'k'),(0,0,'q')]`). -/
def casPairs : List (Int × Int × Char) := [(7,7,'K'),(7,0,'Q'),(0,7,'k'),(0,0,'q')]

/-- One pass of `for rr,rc,flag in pairs: if ...: cas.remove(flag)` keyed on a
square `(r, c)`. -/
def eraseAtFold (r c : Int) (cas : List Char) : List Char :=
  casPairs.foldl (fun cas rrf =>
    if r = rrf.1 ∧ c = rrf.2.1 ∧ rrf.2.2 ∈ cas then cas.erase rrf.2.2 else cas) cas

/-- Castling-rights update of `Board._apply_raw` (as a character list, before
the final `'-'`-if-empty step). -/
def casAfter (b : Board) (fr fc tr tc : Int) : List Char :=
  let p := (cellB b.board fr fc).toLower
  let cas0 := ((if b.castling = "" then "" else b.castling).data.filter (fun x => x ≠ '-'))
  let cas1 :=
    if p = 'k' then
      cas0.filter (fun x => ¬ x ∈ (if b.turn = "w" then ['K','Q'] else ['k','q']))
    else cas0
  let cas2 := if p = 'r' then eraseAtFold fr fc cas1 else cas1
  eraseAtFold tr tc cas2

/-- En-passant-target update of `Board._apply_raw`. -/
def epAfterMove (b : Board) (fr fc tr _tc : Int) : String :=
  if (cellB b.board fr fc).toLower = 'p' ∧ (fr - tr).natAbs = 2 then
    let ep_r2 := Int.fdiv (fr + tr) 2
    String.mk (Char.ofNat (97 + fc).toNat :: intRepr (8 - ep_r2))
  else "-"

/-- `Board._apply_raw`: simulate the move on a fresh copy (empty histories, as
`Board.__new__` leaves them). -/
def apply_raw (b : Board) (fr fc tr tc : Int) (promo : Option Char) : Board :=
  { board := boardAfter b fr fc tr tc promo
    turn := if b.turn = "w" then "b" else "w"
    castling := if casAfter b fr fc tr tc = [] then "-"
      else String.mk (casAfter b fr fc tr tc)
    ep := epAfterMove b fr fc tr tc
    halfmove := if (cellB b.board fr fc).toLower = 'p' ∨ cellB b.board tr tc ≠ '.' then 0
      else b.halfmove + 1
    fullmove := if b.turn = "b" then b.fullmove + 1 else b.fullmove
    move_history := []
    pos_history := []
    cap_white := []
    cap_black := [] }

/-- `Board.legal_moves(turn)` with an explicit side: pseudo moves whose
simulation leaves the mover's king unattacked. -/
def legal_movesT (b : Board) (t : String) : List Move :=
  (List.range 8).flatMap (fun r =>
    (List.range 8).flatMap (fun c =>
      let p := cellB b.board r c
      if p = '.' then []
      else if ((t = "w") ↔ p.isUpper = true) then
        (pseudo b r c).filter (fun mv =>
          !(in_checkT (apply_raw b mv.1 mv.2.1 mv.2.2.1 mv.2.2.2.1 mv.2.2.2.2) t))
      else []))

/-- `Board.legal_moves()` (side to move). -/
def legal_moves (b : Board) : List Move := legal_movesT b b.turn

/-! ### SAN rendering (`Board._build_san`) -/

/-- Square name `f"{chr(ord('a')+tc)}{8-tr}"`. -/
def sqName (tc tr : Int) : List Char := Char.ofNat (97 + tc).toNat :: intRepr (8 - tr)

/-- `Board._build_san(fr, fc, tr, tc, promo, legal)` (no check suffix; that is
added by `apply_uci`). -/
def build_san (b : Board) (fr fc tr tc : Int) (promo : Option Char) (legal : List Move) :
    String :=
  let piece := cellB b.board fr fc
  let p := piece.toLower
  let target := cellB b.board tr tc
  let is_cap := (target ≠ '.') ∨
    (p = 'p' ∧ b.ep ≠ "-" ∧ tc = epCol b ∧ tr = 8 - epRank b)
  if p = 'k' ∧ fc = 4 ∧ tc = 6 then "O-O"
  else if p = 'k' ∧ fc = 4 ∧ tc = 2 then "O-O-O"
  else
    let to_sq := sqName tc tr
    if p = 'p' then
      let san := if is_cap then Char.ofNat (97 + fc).toNat :: 'x' :: to_sq else to_sq
      String.mk (san ++ (match promo with
        | some pp => '=' :: [pp.toUpper]
        | none => []))
    else
      let pl := p.toUpper
      let ambig := legal.filter (fun m =>
        m.2.2.1 = tr ∧ m.2.2.2.1 = tc ∧ m.2.2.2.2 = promo ∧
        (cellB b.board m.1 m.2.1).toLower = p ∧ ¬ (m.1 = fr ∧ m.2.1 = fc))
      let dis : List Char :=
        if ambig = [] then []
        else
          let sf := ambig.any (fun m => m.2.1 == fc)
          let sr := ambig.any (fun m => m.1 == fr)
          if !sf then [Char.ofNat (97 + fc).toNat]
          else if !sr then intRepr (8 - fr)
          else Char.ofNat (97 + fc).toNat :: intRepr (8 - fr)
      let capm : List Char := if is_cap then ['x'] else []
      String.mk (pl :: dis ++ capm ++ to_sq ++ (match promo with
        | some pp => '=' :: [pp.toUpper]
        | none => []))

/-! ### Applying a UCI move (`Board.apply_uci`) -/

/-- Python dict `self.pos_history.get(pos, 0)` (association list). -/
def posGet : List (String × Nat) → String → Nat
  | [], _ => 0
  | (k', v) :: rest, k => if k' = k then v else posGet rest k

/-- Python `self.pos_history[pos] = self.pos_history.get(pos, 0) + 1`. -/
def posIncr : List (String × Nat) → String → List (String × Nat)
  | [], k => [(k, 1)]
  | (k', v) :: rest, k =>
    if k' = k then (k', v + 1) :: rest else (k', v) :: posIncr rest k

/-- Parsing the UCI string at the top of `apply_uci` (`ValueError`s become
`.error`). -/
def parseUci (uci : String) : Except String (Int × Int × Int × Int × Option Char) :=
  let cs := uci.data
  if cs.length < 4 then .error ("Bad UCI: " ++ uci)
  else
    match (cs.getD 1 ' ').isDigit, (cs.getD 3 ' ').isDigit with
    | true, true =>
      let fc : Int := (cs.getD 0 ' ').toNat - 97
      let fr : Int := 8 - ((cs.getD 1 ' ').toNat - 48)
      let tc : Int := (cs.getD 2 ' ').toNat - 97
      let tr : Int := 8 - ((cs.getD 3 ' ').toNat - 48)
      let promo := if cs.length > 4 then some (cs.getD 4 ' ').toLower else none
      .ok (fr, fc, tr, tc, promo)
    | _, _ => .error ("invalid literal for int() with base 10")

/-- The in-place field assignments of `apply_uci` after `_apply_raw`
(histories kept, core fields replaced). -/
def applied (b : Board) (fr fc tr tc : Int) (promo : Option Char) : Board :=
  let nw := apply_raw b fr fc tr tc promo
  { b with
    board := nw.board
    castling := nw.castling
    ep := nw.ep
    halfmove := nw.halfmove
    fullmove := nw.fullmove
    turn := nw.turn }

/-- The captured-piece bookkeeping of `apply_uci` (append to `cap_white` /
`cap_black` after the turn has flipped). -/
def addCap (b1 : Board) (cap : Option Char) : Board :=
  match cap with
  | some x =>
    if x ≠ '.' then
      if b1.turn = "w" then { b1 with cap_white := b1.cap_white ++ [x] }
      else { b1 with cap_black := b1.cap_black ++ [x] }
    else b1
  | none => b1

/-- The successful tail of `apply_uci` (SAN build, mutation, history update);
returns `(san, captured, updated board)`. -/
def applyCore (b : Board) (uci : String) (fr fc tr tc : Int) (promo : Option Char)
    (legal : List Move) : String × Option Char × Board :=
  let san0 := build_san b fr fc tr tc promo legal
  let target := cellB b.board tr tc
  let p := (cellB b.board fr fc).toLower
  let ep_removed : Option Char :=
    if p = 'p' ∧ b.ep ≠ "-" then
      if tr = 8 - epRank b ∧ tc = epCol b then some (cellB b.board fr (epCol b)) else none
    else none
  let b1 : Board := applied b fr fc tr tc promo
  let in_chk := in_check b1
  let no_mvs := (legal_moves b1).length = 0
  let san := if in_chk then san0 ++ (if no_mvs then "#" else "+") else san0
  let cap : Option Char :=
    match ep_removed with
    | some x => some x
    | none => if target ≠ '.' then some target else none
  let b2 : Board := addCap b1 cap
  let fen_after := to_fen b2
  let b3 := { b2 with move_history := b2.move_history ++ [(uci, san, fen_after)] }
  let b4 := { b3 with pos_history := posIncr b3.pos_history (pos_key b3) }
  (san, cap, b4)

/-- `Board.apply_uci(uci)`: validate against the legal-move list (with the
queen-promotion default), then mutate; `raise` becomes `.error`. -/
def apply_uci (b : Board) (uci : String) : Except String (String × Option Char × Board) :=
  match parseUci uci with
  | .error e => .error e
  | .ok (fr, fc, tr, tc, promo) =>
    let legal := legal_moves b
    if (fr, fc, tr, tc, promo) ∈ legal then
      .ok (applyCore b uci fr fc tr tc promo legal)
    else if promo = none ∧ (fr, fc, tr, tc, some 'q') ∈ legal then
      .ok (applyCore b uci fr fc tr tc (some 'q') legal)
    else .error ("Illegal move: " ++ uci)

/-- The board after `apply_uci` as the Python caller sees `self`: unchanged
when the method raises. -/
def applyState (b : Board) (uci : String) : Board :=
  match apply_uci b uci with
  | .ok r => r.2.2
  | .error _ => b

/-- `apply_uci` over a list of UCI strings (`none` once a move is rejected). -/
def applyChain (b : Board) : List String → Option Board
  | [] => some b
  | u :: us =>
    match apply_uci b u with
    | .ok r => applyChain r.2.2 us
    | .error _ => none

/-! ### Game-end classification (`Board.game_result`, `Board._insufficient`) -/

/-- `Board._insufficient`: material lists without kings, compared against the
bare-king / single-minor patterns. -/
def insufficient (b : Board) : Bool :=
  let cellsAll := b.board.flatMap id
  let ws := ((cellsAll.filter (fun p => p ≠ '.' ∧ p.isUpper)).map Char.toLower).filter
    (fun p => p ≠ 'k')
  let bs := ((cellsAll.filter (fun p => p ≠ '.' ∧ ¬ p.isUpper = true)).map Char.toLower).filter
    (fun p => p ≠ 'k')
  (ws = [] ∧ bs = []) ∨
  (ws = [] ∧ (bs = ['b'] ∨ bs = ['n'])) ∨
  (bs = [] ∧ (ws = ['b'] ∨ ws = ['n']))

/-- `Board.game_result`: `(is_over, result, reason, winner)`. -/
def game_result (b : Board) : Bool × String × String × Option String :=
  let legal := legal_moves b
  if legal = [] then
    if in_check b then
      ((true, (if b.turn = "w" then "0-1" else "1-0"), "Checkmate",
        some (if b.turn = "w" then "black" else "white")))
    else (true, "1/2-1/2", "Stalemate", none)
  else if 100 ≤ b.halfmove then (true, "1/2-1/2", "Draw by 50-move rule", none)
  else if 3 ≤ posGet b.pos_history (pos_key b) then
    (true, "1/2-1/2", "Draw by threefold repetition", none)
  else if insufficient b then (true, "1/2-1/2", "Draw by insufficient material", none)
  else (false, "", "", none)

/-! ### Perft (the claim's depth-counting of legal move sequences) -/

/-- `perft n b`: number of legal move sequences of length `n` from `b`,
applying moves through `apply_raw` exactly as the legality filter does. -/
def perft : Nat → Board → Nat
  | 0, _ => 1
  | n+1, b =>
    ((legal_moves b).map (fun mv =>
      perft n (apply_raw b mv.1 mv.2.1 mv.2.2.1 mv.2.2.2.1 mv.2.2.2.2))).sum

/-! ### Decimal round trip: `parseNat` inverts `natRepr` -/

/-! ### Tokenization lemmas for `pySplit` and `splitSlash` -/

/-- No character of `l` is whitespace. -/
def noWsL (l : List Char) : Prop := ∀ c ∈ l, c.isWhitespace = false

instance : DecidablePred noWsL := fun l => by unfold noWsL; infer_instance

/-- No character of `l` is `'/'`. -/
def noSlashL (l : List Char) : Prop := ∀ c ∈ l, c ≠ '/'

/-! ### Row run-length round trip -/

/-- The cell alphabet of a well-formed board. -/
def cellOK (c : Char) : Prop :=
  c ∈ ['.','K','Q','R','B','N','P','k','q','r','b','n','p']

instance : DecidablePred cellOK := fun c => by unfold cellOK; infer_instance

/-! ### The reachable-state invariant `wf` -/

/-- Well-formedness invariant maintained by the `Board` methods: an 8×8 board
over the piece alphabet, a one-character side to move, a nonempty
duplicate-free castling field over `KQkq` (or `"-"`), and a nonempty
whitespace-free en-passant field. -/
def wf (b : Board) : Prop :=
  b.board.length = 8 ∧
  (∀ row ∈ b.board, row.length = 8 ∧ ∀ c ∈ row, cellOK c) ∧
  (b.turn = "w" ∨ b.turn = "b") ∧
  (b.castling = "-" ∨
    (b.castling.data ≠ [] ∧ b.castling.data.Nodup ∧
      ∀ c ∈ b.castling.data, c ∈ ['K','Q','k','q'])) ∧
  (b.ep.data ≠ [] ∧ noWsL b.ep.data)

instance : DecidablePred wf := fun b => by
  unfold wf cellOK noWsL
  infer_instance

/-! ### FEN round trip on well-formed boards -/

/-! ### Shape facts about generated pseudo-moves -/

/-- The promotion component of a generated move is absent or one of `qrbn`. -/
def promoOK (m : Move) : Prop :=
  m.2.2.2.2 = none ∨ m.2.2.2.2 = some 'q' ∨ m.2.2.2.2 = some 'r' ∨
    m.2.2.2.2 = some 'b' ∨ m.2.2.2.2 = some 'n'

/-! ### Preservation of `wf` by move application -/

/-- An 8×8 board over the cell alphabet. -/
def boardOK (bd : List (List Char)) : Prop :=
  bd.length = 8 ∧ ∀ row ∈ bd, row.length = 8 ∧ ∀ c ∈ row, cellOK c

/-- The reachable positions: the starting board and everything a successful
`apply_uci` produces from a reachable one. -/
inductive Reachable : Board → Prop
  | start : Reachable Board.new
  | step (b : Board) (uci : String) (out : String × Option Char × Board) :
      Reachable b → apply_uci b uci = .ok out → Reachable out.2.2

/-! ### Kingless sides (`find_king` / `in_check` totality) -/

/-! ### Engine protocol client (`UCIEngine`) -/

/-- One interaction of the search loop with the line queue: either a line was
received, or the bounded poll timed out (`queue.Empty`) with the process
alive (`poll() is None`) or dead.  A trace is the finite sequence of
interactions the loop performs before its overall deadline passes; the loop
running out of trace models `time.time() >= end`. -/
inductive QEvent where
  | got (line : String)
  | timedOut (dead : Bool)
deriving Repr, DecidableEq

/-- The `(none)`/`null`/`0000` sentinels of `get_best_move`. -/
def noMoveSentinels : List String := ["(none)", "null", "0000"]

/-- Structural check that the first list leads the second. -/
def leadEq : List Char → List Char → Bool
  | [], _ => true
  | _ :: _, [] => false
  | a :: as, b :: bs => a = b && leadEq as bs

/-- `s.startswith(p)` as a structural check on the character lists. -/
def strLead (s p : String) : Bool := leadEq p.data s.data

/-- The read loop of `UCIEngine.get_best_move` over an interaction trace:
parse `info` lines, stop at a `bestmove` line (returning its token unless it
is a no-move sentinel), stop with `None` when the process died or the
deadline passed. -/
def bestmove_scan : List QEvent → Option String
  | [] => none
  | .got line :: rest =>
    if line = "" then bestmove_scan rest
    else if strLead line ("info ") then bestmove_scan rest
    else if strLead line ("bestmove") then
      match (pySplit line.data).map String.mk with
      | _ :: tok :: _ => if tok ∈ noMoveSentinels then none else some tok
      | _ => none
    else bestmove_scan rest
  | .timedOut dead :: rest => if dead then none else bestmove_scan rest

/-- `UCIEngine.get_best_move` (guard on `ready`/`alive`, then the read loop). -/
def get_best_move (ready alive : Bool) (events : List QEvent) : Option String :=
  if !ready || !alive then none else bestmove_scan events

/-- The `_wait(kw, timeout)` loop over an interaction trace: `True` iff an
acknowledgement line arrives before the deadline (trace exhaustion) or the
process is found dead on an empty poll. -/
def wait_scan (kw : String) : List QEvent → Bool
  | [] => false
  | .got line :: rest =>
    if line = "" then wait_scan kw rest
    else if String.mk (pyStrip line.data) = kw ∨ strLead line kw then true
    else wait_scan kw rest
  | .timedOut dead :: rest => if dead then false else wait_scan kw rest

/-- The distinct failures of `UCIEngine.start` (`RuntimeError` messages of the
source, plus the spawn failures). -/
inductive StartError where
  | engineNotFound
  | permissionDenied
  | noUciok
  | noReadyok
deriving Repr, DecidableEq

/-- `UCIEngine.start`: spawn (its two failures re-raised as structured
errors), then the `uci`/`uciok` handshake on trace `evs1`, then the
`isready`/`readyok` handshake on trace `evs2`. -/
def start (spawn : Option StartError) (evs1 evs2 : List QEvent) : Except StartError Unit :=
  match spawn with
  | some e => .error e
  | none =>
    if wait_scan ("uciok") evs1 then
      if wait_scan ("readyok") evs2 then .ok () else .error .noReadyok
    else .error .noUciok

/-- The second whitespace-separated token of a line (`line.split()[1]`). -/
def secondTok (line : String) : Option String :=
  match (pySplit line.data).map String.mk with
  | _ :: tok :: _ => some tok
  | _ => none

/-- A second token that is present and not a no-move sentinel. -/
def tokUsable : Option String → Prop
  | some tok => ¬ tok ∈ noMoveSentinels
  | none => False

instance : (o : Option String) → Decidable (tokUsable o)
  | some tok => inferInstanceAs (Decidable (¬ tok ∈ noMoveSentinels))
  | none => isFalse (fun h => h)

/-- A `bestmove` line whose second whitespace token is a usable move. -/
def usableBestmove (line : String) : Prop :=
  line ≠ "" ∧ strLead line ("info ") = false ∧ strLead line ("bestmove") = true ∧
    tokUsable (secondTok line)

instance (line : String) : Decidable (usableBestmove line) := by
  unfold usableBestmove
  infer_instance

/-- The line carried by a queue interaction, if any. -/
def lineOf : QEvent → Option String
  | .got s => some s
  | .timedOut _ => none

/-- No line of the trace is a usable `bestmove` announcement. -/
def optNotUsable : Option String → Prop
  | some s => ¬ usableBestmove s
  | none => True

instance : (o : Option String) → Decidable (optNotUsable o)
  | some s => inferInstanceAs (Decidable (¬ usableBestmove s))
  | none => isTrue trivial

def noUsableLine (evs : List QEvent) : Prop := ∀ e ∈ evs, optNotUsable (lineOf e)

instance (evs : List QEvent) : Decidable (noUsableLine evs) := by
  unfold noUsableLine
  infer_instance

/-- The process object of `UCIEngine` (only what `alive`/`stop` observe:
`poll()` is `None` while running). -/
structure ProcState where
  pollResult : Option Int
deriving Repr, DecidableEq

/-- The `UCIEngine` fields observed by `stop`/`alive`. -/
structure EngineState where
  process : Option ProcState
  ready : Bool
deriving Repr, DecidableEq

/-- `UCIEngine.alive`: the process handle exists and has not exited. -/
def alive (e : EngineState) : Bool :=
  match e.process with
  | some p => p.pollResult.isNone
  | none => false

/-- `UCIEngine.stop`: best-effort `stop`/`quit`/`terminate`/`wait` inside
`try: ... except Exception: pass` (`shutdownFails` says whether that block
raised), then unconditionally clear `process` and `ready`. -/
def stop (e : EngineState) (_shutdownFails : Bool) : EngineState :=
  match e.process with
  | some _ => { e with process := none, ready := false }
  | none => e

/-- A line at which the `get_best_move` loop breaks with a result decision. -/
def breaksLoop (line : String) : Prop :=
  line ≠ "" ∧ strLead line ("info ") = false ∧ strLead line ("bestmove") = true

instance (line : String) : Decidable (breaksLoop line) := by
  unfold breaksLoop
  infer_instance

/-- No line of the trace breaks the `get_best_move` loop. -/
def optNotBreak : Option String → Prop
  | some s => ¬ breaksLoop s
  | none => True

instance : (o : Option String) → Decidable (optNotBreak o)
  | some s => inferInstanceAs (Decidable (¬ breaksLoop s))
  | none => isTrue trivial

def noBreakLine (evs : List QEvent) : Prop := ∀ e ∈ evs, optNotBreak (lineOf e)

instance (evs : List QEvent) : Decidable (noBreakLine evs) := by
  unfold noBreakLine
  infer_instance

/-- A trace with no received line at all (the process never responds). -/
def noGotLine (evs : List QEvent) : Prop := ∀ e ∈ evs, lineOf e = none

instance (evs : List QEvent) : Decidable (noGotLine evs) := by
  unfold noGotLine
  infer_instance

/-! ### En-passant target behaviour -/

/-! ### Rejection path of `apply_uci` -/

/-! ### Game-end classification against the specification wording -/

/-- "Only a single knight or a single bishop", as the specification words it
(length-one material with that minor piece). -/
def singleMinor (l : List Char) : Prop :=
  l.length = 1 ∧ (l.head? = some 'n' ∨ l.head? = some 'b')

instance : DecidablePred singleMinor := fun l => by unfold singleMinor; infer_instance

/-- Insufficient material as the specification words it: both sides bare
kings, or one side a bare king and the other only a single knight or single
bishop. -/
def insufficientSpec (b : Board) : Prop :=
  let cellsAll := b.board.flatMap id
  let ws := ((cellsAll.filter (fun p => p ≠ '.' ∧ p.isUpper)).map Char.toLower).filter
    (fun p => p ≠ 'k')
  let bs := ((cellsAll.filter (fun p => p ≠ '.' ∧ ¬ p.isUpper = true)).map Char.toLower).filter
    (fun p => p ≠ 'k')
  (ws.length = 0 ∧ bs.length = 0) ∨ (ws.length = 0 ∧ singleMinor bs) ∨
    (bs.length = 0 ∧ singleMinor ws)

instance : DecidablePred insufficientSpec := fun b => by
  unfold insufficientSpec
  infer_instance

/-- `classify` as worded in the specification: ongoing, checkmate (winner the
side not to move), stalemate, fifty-move rule, threefold repetition,
insufficient material — in that priority order. -/
def classifySpec (b : Board) : Bool × String × String × Option String :=
  if legal_moves b = [] then
    if in_check b then
      (true, (if b.turn = "w" then "0-1" else "1-0"), "Checkmate",
        some (if b.turn = "w" then "black" else "white"))
    else (true, "1/2-1/2", "Stalemate", none)
  else if 100 ≤ b.halfmove then (true, "1/2-1/2", "Draw by 50-move rule", none)
  else if 3 ≤ posGet b.pos_history (pos_key b) then
    (true, "1/2-1/2", "Draw by threefold repetition", none)
  else if insufficientSpec b then (true, "1/2-1/2", "Draw by insufficient material", none)
  else (false, "", "", none)

/-! ### SAN rendering against the specification wording -/

/-- The check/checkmate suffix appended by `apply_uci` after the move is on
the board. -/
def checkSuffix (next : Board) : String :=
  if in_check next then (if (legal_moves next).length = 0 then "#" else "+") else ""

/-- Promotion suffix of the specification's SAN format. -/
def promoSuffix (promo : Option Char) : List Char :=
  match promo with
  | some pp => ['=', pp.toUpper]
  | none => []

/-- File letter of a column, `a`–`h`. -/
def fileCharOf (c : Int) : Char := Char.ofNat (97 + c).toNat

/-- Rank digits of a row (rank `8 - row`). -/
def rankCharsOf (r : Int) : List Char := intRepr (8 - r)

/-- "A same-type piece that could legally reach the same destination with the
same promotion outcome, other than the moving piece itself." -/
def couldAlsoReach (b : Board) (kind : Char) (fr fc tr tc : Int) (promo : Option Char)
    (m : Move) : Prop :=
  m.2.2.1 = tr ∧ m.2.2.2.1 = tc ∧ m.2.2.2.2 = promo ∧
    (cellB b.board m.1 m.2.1).toLower = kind ∧ ¬ (m.1 = fr ∧ m.2.1 = fc)

instance (b : Board) (kind : Char) (fr fc tr tc : Int) (promo : Option Char) (m : Move) :
    Decidable (couldAlsoReach b kind fr fc tr tc promo m) := by
  unfold couldAlsoReach
  infer_instance

/-- Disambiguation as the specification words it: nothing unless another
same-type piece can legally reach the destination; otherwise the origin file,
else the origin rank, else both. -/
def specDisambig (b : Board) (kind : Char) (fr fc tr tc : Int) (promo : Option Char)
    (legal : List Move) : List Char :=
  let others := legal.filter (fun m => couldAlsoReach b kind fr fc tr tc promo m)
  if others = [] then []
  else if ∀ m ∈ others, ¬ m.2.1 = fc then [fileCharOf fc]
  else if ∀ m ∈ others, ¬ m.1 = fr then rankCharsOf fr
  else fileCharOf fc :: rankCharsOf fr

/-- SAN as the specification words it: `O-O`/`O-O-O` for castling; otherwise
piece letter (omitted for pawns) + disambiguation + capture marker +
destination square + promotion suffix. -/
def sanSpecCore (b : Board) (fr fc tr tc : Int) (promo : Option Char)
    (legal : List Move) : String :=
  let p := (cellB b.board fr fc).toLower
  let isCap := (cellB b.board tr tc ≠ '.') ∨
    (p = 'p' ∧ b.ep ≠ "-" ∧ tc = epCol b ∧ tr = 8 - epRank b)
  if p = 'k' ∧ fc = 4 ∧ tc = 6 then "O-O"
  else if p = 'k' ∧ fc = 4 ∧ tc = 2 then "O-O-O"
  else if p = 'p' then
    String.mk ((if isCap then [fileCharOf fc, 'x'] else [])
      ++ sqName tc tr ++ promoSuffix promo)
  else
    String.mk (p.toUpper :: (specDisambig b p fr fc tr tc promo legal
      ++ (if isCap then ['x'] else []) ++ sqName tc tr ++ promoSuffix promo))

/-! ### Castling rights are monotonically lost -/

/-- The king character of a side (`'K'` for White, else `'k'`). -/
def kingChar (s : String) : Char := if s = "w" then 'K' else 'k'

/-- The rook character of a side. -/
def rookChar (s : String) : Char := if s = "w" then 'R' else 'r'

/-- The home (back-rank) row of a side: row 7 for White, row 0 for Black. -/
def homeRank (s : String) : Int := if s = "w" then 7 else 0

/-- The home column of the wing's rook: 7 kingside, 0 queenside. -/
def rookHomeCol (kingside : Bool) : Int := if kingside then 7 else 0

/-- The king's destination column when castling: 6 kingside, 2 queenside. -/
def castleDest (kingside : Bool) : Int := if kingside then 6 else 2

/-- The castling-rights character of a side and wing. -/
def flagChar (s : String) (kingside : Bool) : Char :=
  if s = "w" then (if kingside then 'K' else 'Q') else (if kingside then 'k' else 'q')

/-- "Castling appears in the legal-move set for that side": the two-square
king move from the home square is legal and the home square indeed holds that
side's king. -/
def castleLegal (b : Board) (s : String) (kingside : Bool) : Prop :=
  (homeRank s, 4, homeRank s, castleDest kingside, (none : Option Char))
      ∈ legal_movesT b s ∧
    cellB b.board (homeRank s) 4 = kingChar s

instance (b : Board) (s : String) (kingside : Bool) : Decidable (castleLegal b s kingside) := by
  unfold castleLegal
  infer_instance

/-- The claim's trigger: the side's king moves away from its home square, or
the wing's rook moves away from its home square. -/
def triggerMove (b : Board) (s : String) (kingside : Bool) (fr fc : Int) : Prop :=
  (fr = homeRank s ∧ fc = 4 ∧ cellB b.board fr fc = kingChar s) ∨
  (fr = homeRank s ∧ fc = rookHomeCol kingside ∧ cellB b.board fr fc = rookChar s)

instance (b : Board) (s : String) (kingside : Bool) (fr fc : Int) :
    Decidable (triggerMove b s kingside fr fc) := by
  unfold triggerMove
  infer_instance

/-- The trigger applied to the optional result of a chain of moves. -/
def triggerOpt (s : String) (kingside : Bool) (fr fc : Int) : Option Board → Prop
  | some b1 => triggerMove b1 s kingside fr fc
  | none => False

instance (s : String) (kingside : Bool) (fr fc : Int) :
    (o : Option Board) → Decidable (triggerOpt s kingside fr fc o)
  | some b1 => inferInstanceAs (Decidable (triggerMove b1 s kingside fr fc))
  | none => isFalse (fun h => h)

/-- "Castling never again appears" applied to the optional result of a chain
of moves (vacuously true when the chain rejects a move). -/
def castleFreeOpt (s : String) (kingside : Bool) : Option Board → Prop
  | some b3 => ¬ castleLegal b3 s kingside
  | none => True

/-! ### Concrete positions used by the claims -/

/-- A position with a white pawn one step from promotion (`e7`). -/
def cexPromoBoard : Board := load_fen initBoard ("k7/4P3/8/8/8/8/8/K7 w - - 0 1")

/-- Two white rooks on `a1` and `h1` that can both reach `d1`. -/
def rookBoardA : Board := load_fen initBoard ("8/8/2k5/8/4K3/8/8/R6R w - - 0 1")

/-- Two white rooks on `a1` and `a3` that can both reach `a2`. -/
def rookBoardB : Board := load_fen initBoard ("8/8/2k5/8/4K3/R7/8/R7 w - - 0 1")

/-- A test position with no black king on the board. -/
def kinglessBoard : Board := load_fen initBoard ("8/8/8/8/8/8/8/K7 w - - 0 1")

/-- Whether an `apply_uci` call succeeded. -/
def exceptIsOk : Except String (String × Option Char × Board) → Bool
  | .ok _ => true
  | .error _ => false

/-- "The side `t` has no king anywhere on the board." -/
def kingAbsent (b : Board) (t : String) : Prop :=
  ∀ row ∈ b.board, ∀ x ∈ row, x ≠ (if t = "w" then 'K' else 'k')

instance (b : Board) (t : String) : Decidable (kingAbsent b t) := by
  unfold kingAbsent
  infer_instance

/-! ### The claims -/

/-! ### Theorems -/

theorem digitChar_toNat {n : Nat} (h : n < 10) : (digitChar n).toNat = 48 + n := by
  interval_cases n <;> decide

theorem digitChar_isDigit {n : Nat} (h : n < 10) : (digitChar n).isDigit = true := by
  interval_cases n <;> decide

theorem natReprFuel_spec : ∀ (f n : Nat) (acc : List Char), n < 10 ^ (f + 1) →
    ∃ ds : List Char, natReprFuel (f + 1) n acc = ds ++ acc ∧ ds ≠ [] ∧
      (∀ c ∈ ds, c.isDigit = true) ∧
      ∀ a : Nat, ds.foldl (fun x c => x * 10 + (c.toNat - 48)) a = a * 10 ^ ds.length + n := by
  intro f
  induction f with
  | zero =>
    intro n acc h
    have h10 : n < 10 := by simpa using h
    have hd : n / 10 = 0 := Nat.div_eq_of_lt h10
    have hm : n % 10 = n := Nat.mod_eq_of_lt h10
    refine ⟨[digitChar n], ?_, by simp, ?_, ?_⟩
    · simp [natReprFuel, hd, hm]
    · intro c hc
      simp at hc
      subst hc
      exact digitChar_isDigit h10
    · intro a
      simp [List.foldl, digitChar_toNat h10]
  | succ f ih =>
    intro n acc h
    by_cases hz : n / 10 = 0
    · have h10 : n < 10 := by omega
      have hm : n % 10 = n := Nat.mod_eq_of_lt h10
      refine ⟨[digitChar n], ?_, by simp, ?_, ?_⟩
      · simp [natReprFuel, hz, hm]
      · intro c hc
        simp at hc
        subst hc
        exact digitChar_isDigit h10
      · intro a
        simp [List.foldl, digitChar_toNat h10]
    · have hlt : n / 10 < 10 ^ (f + 1) := by
        have hp : 10 ^ (f + 1 + 1) = 10 ^ (f + 1) * 10 := by ring
        rw [hp] at h
        exact Nat.div_lt_of_lt_mul (by omega)
      obtain ⟨ds', heq, hne, hdig, hfold⟩ := ih (n / 10) (digitChar (n % 10) :: acc) hlt
      have hstep : natReprFuel (f + 1 + 1) n acc
          = natReprFuel (f + 1) (n / 10) (digitChar (n % 10) :: acc) := by
        simp [natReprFuel, hz]
      refine ⟨ds' ++ [digitChar (n % 10)], ?_, by simp, ?_, ?_⟩
      · rw [hstep, heq]
        simp
      · intro c hc
        rcases List.mem_append.1 hc with hc | hc
        · exact hdig c hc
        · simp at hc
          subst hc
          exact digitChar_isDigit (Nat.mod_lt _ (by omega))
      · intro a
        rw [List.foldl_append]
        have hmod : (digitChar (n % 10)).toNat = 48 + n % 10 :=
          digitChar_toNat (Nat.mod_lt _ (by omega))
        simp [List.foldl, hfold a, hmod, List.length_append]
        have : a * 10 ^ (ds'.length + 1) = a * 10 ^ ds'.length * 10 := by ring
        rw [this]
        have hdm := Nat.div_add_mod n 10
        omega

theorem natRepr_spec (n : Nat) : ∃ ds : List Char, natRepr n = ds ∧ ds ≠ [] ∧
    (∀ c ∈ ds, c.isDigit = true) ∧ parseNat ds = n := by
  have hb : n < 10 ^ (n + 1) := by
    calc n < 10 ^ n := Nat.lt_pow_self (by omega) n
    _ ≤ 10 ^ (n + 1) := Nat.pow_le_pow_right (by omega) (Nat.le_succ n)
  obtain ⟨ds, heq, hne, hdig, hfold⟩ := natReprFuel_spec n n [] hb
  refine ⟨ds, ?_, hne, hdig, ?_⟩
  · simpa [natRepr] using heq
  · have := hfold 0
    simpa [parseNat] using this

theorem parseNat_natRepr (n : Nat) : parseNat (natRepr n) = n := by
  obtain ⟨ds, heq, _, _, hp⟩ := natRepr_spec n
  rw [heq, hp]

theorem natRepr_ne_nil (n : Nat) : natRepr n ≠ [] := by
  obtain ⟨ds, heq, hne, _, _⟩ := natRepr_spec n
  rw [heq]; exact hne

theorem natRepr_digits (n : Nat) : ∀ c ∈ natRepr n, c.isDigit = true := by
  obtain ⟨ds, heq, _, hdig, _⟩ := natRepr_spec n
  rw [heq]; exact hdig

/-- A decimal digit character is not whitespace, not `'/'`, and not `'.'`. -/
theorem digit_not_special {c : Char} (h : c.isDigit = true) :
    c.isWhitespace = false ∧ c ≠ '/' ∧ c ≠ '.' := by
  have hge : 48 ≤ c.toNat := by
    simp [Char.isDigit, decide_eq_true_eq] at h
    exact h.1
  have hle : c.toNat ≤ 57 := by
    simp [Char.isDigit, decide_eq_true_eq] at h
    exact h.2
  refine ⟨?_, ?_, ?_⟩
  · by_contra hw
    rw [Bool.not_eq_false] at hw
    have hcases : c = ' ' ∨ c = '\t' ∨ c = '\r' ∨ c = '\n' := by
      simpa [Char.isWhitespace, Bool.or_eq_true, decide_eq_true_eq, or_assoc] using hw
    rcases hcases with h1 | h1 | h1 | h1 <;> subst h1 <;> exact absurd h (by decide)
  · intro he; subst he; exact absurd h (by decide)
  · intro he; subst he; exact absurd h (by decide)

theorem pySplitAux_token : ∀ (t cs cur : List Char), noWsL t →
    pySplitAux (t ++ cs) cur = pySplitAux cs (t.reverse ++ cur) := by
  intro t
  induction t with
  | nil => intro cs cur _; simp
  | cons c t' ih =>
    intro cs cur hws
    have hc : c.isWhitespace = false := hws c (by simp)
    have ht' : noWsL t' := fun x hx => hws x (by simp [hx])
    simp only [List.cons_append, pySplitAux, hc, List.append_eq]
    rw [if_neg (by simp [hc]), ih cs (c :: cur) ht']
    simp

theorem pySplit_sep (t rest : List Char) (hne : t ≠ []) (hws : noWsL t) :
    pySplit (t ++ ' ' :: rest) = t :: pySplit rest := by
  unfold pySplit
  rw [pySplitAux_token t (' ' :: rest) [] hws]
  simp only [List.append_nil, pySplitAux]
  rw [if_pos (by decide), if_neg (by simpa using hne)]
  simp

theorem pySplit_last (t : List Char) (hne : t ≠ []) (hws : noWsL t) :
    pySplit t = [t] := by
  unfold pySplit
  have := pySplitAux_token t [] [] hws
  rw [List.append_nil] at this
  rw [this]
  simp only [List.append_nil, pySplitAux]
  rw [if_neg (by simpa using hne)]
  simp

theorem splitSlashAux_token : ∀ (t cs cur : List Char), noSlashL t →
    splitSlashAux (t ++ cs) cur = splitSlashAux cs (t.reverse ++ cur) := by
  intro t
  induction t with
  | nil => intro cs cur _; simp
  | cons c t' ih =>
    intro cs cur hsl
    have hc : c ≠ '/' := hsl c (by simp)
    have ht' : noSlashL t' := fun x hx => hsl x (by simp [hx])
    simp only [List.cons_append, splitSlashAux, List.append_eq]
    rw [if_neg hc, ih cs (c :: cur) ht']
    simp

theorem splitSlash_sep (t rest : List Char) (hsl : noSlashL t) :
    splitSlash (t ++ '/' :: rest) = t :: splitSlash rest := by
  unfold splitSlash
  rw [splitSlashAux_token t ('/' :: rest) [] hsl]
  simp [splitSlashAux]

theorem splitSlash_last (t : List Char) (hsl : noSlashL t) :
    splitSlash t = [t] := by
  unfold splitSlash
  have := splitSlashAux_token t [] [] hsl
  rw [List.append_nil] at this
  rw [this]
  simp [splitSlashAux]

theorem splitSlash_joinSlash : ∀ rows : List (List Char), rows ≠ [] →
    (∀ r ∈ rows, noSlashL r) → splitSlash (joinSlash rows) = rows := by
  intro rows
  induction rows with
  | nil => intro h; exact absurd rfl h
  | cons r rs ih =>
    intro _ hsl
    cases rs with
    | nil => exact splitSlash_last r (hsl r (by simp))
    | cons r2 rs' =>
      show splitSlash (r ++ '/' :: joinSlash (r2 :: rs')) = _
      rw [splitSlash_sep r _ (hsl r (by simp))]
      rw [ih (by simp) (fun x hx => hsl x (by simp [hx]))]

theorem cellOK_props {c : Char} (h : cellOK c) :
    c.isDigit = false ∧ c.isWhitespace = false ∧ c ≠ '/' := by
  unfold cellOK at h
  fin_cases h <;> refine ⟨by decide, by decide, by decide⟩

theorem decRow_append (a b : List Char) : decRow (a ++ b) = decRow a ++ decRow b := by
  simp [decRow]

/-- `natRepr` of a one-digit number is that digit. -/
theorem natRepr_small {n : Nat} (h : n < 10) : natRepr n = [digitChar n] := by
  unfold natRepr natReprFuel
  simp [Nat.div_eq_of_lt h, Nat.mod_eq_of_lt h]

/-- Decoding a single digit yields that many empty cells. -/
theorem decRow_digit {e : Nat} (h : e < 10) :
    decRow [digitChar e] = List.replicate e '.' := by
  unfold decRow
  simp [digitChar_isDigit h, digitChar_toNat h]

/-- Decoding the pending-run prefix emitted by `encRow`. -/
theorem decRow_pending {e : Nat} (h : e < 10) :
    decRow (if e ≠ 0 then natRepr e else []) = List.replicate e '.' := by
  by_cases he : e = 0
  · subst he; simp [decRow]
  · rw [if_pos he, natRepr_small h, decRow_digit h]

theorem encRow_dec : ∀ (row : List Char) (e : Nat), (∀ c ∈ row, cellOK c) →
    e + row.length ≤ 9 → decRow (encRow row e) = List.replicate e '.' ++ row := by
  intro row
  induction row with
  | nil =>
    intro e _ hlen
    have h10 : e < 10 := by simp at hlen; omega
    rw [encRow, decRow_pending h10]
    simp
  | cons c cs ih =>
    intro e hok hlen
    by_cases hc : c = '.'
    · subst hc
      rw [encRow, if_pos rfl]
      rw [ih (e + 1) (fun x hx => hok x (by simp [hx])) (by simp at hlen ⊢; omega)]
      rw [List.replicate_succ']
      simp
    · have hcell := cellOK_props (hok c (by simp))
      have h10 : e < 10 := by simp at hlen; omega
      rw [encRow, if_neg hc]
      rw [show ((if e ≠ 0 then natRepr e else []) ++ c :: encRow cs 0)
          = (if e ≠ 0 then natRepr e else []) ++ [c] ++ encRow cs 0 by simp]
      rw [decRow_append, decRow_append, decRow_pending h10]
      have hdc : decRow [c] = [c] := by simp [decRow, hcell.1]
      rw [hdc, ih 0 (fun x hx => hok x (by simp [hx])) (by simp at hlen ⊢; omega)]
      simp

theorem encRow_chars : ∀ (row : List Char) (e : Nat) (c' : Char),
    c' ∈ encRow row e → c'.isDigit = true ∨ c' ∈ row := by
  intro row
  induction row with
  | nil =>
    intro e c' hc
    rw [encRow] at hc
    by_cases he : e = 0
    · subst he; simp at hc
    · rw [if_pos he] at hc
      exact Or.inl (natRepr_digits e c' hc)
  | cons c cs ih =>
    intro e c' hc
    rw [encRow] at hc
    by_cases hdot : c = '.'
    · rw [if_pos hdot] at hc
      rcases ih (e + 1) c' hc with h | h
      · exact Or.inl h
      · exact Or.inr (by simp [h])
    · rw [if_neg hdot] at hc
      rcases List.mem_append.1 hc with h | h
      · by_cases he : e = 0
        · subst he; simp at h
        · rw [if_pos he] at h
          exact Or.inl (natRepr_digits e c' h)
      · rcases List.mem_cons.1 h with h | h
        · exact Or.inr (by simp [h])
        · rcases ih 0 c' h with h2 | h2
          · exact Or.inl h2
          · exact Or.inr (by simp [h2])

theorem encRow_ne_nil : ∀ (row : List Char) (e : Nat), e ≠ 0 ∨ row ≠ [] →
    encRow row e ≠ [] := by
  intro row
  induction row with
  | nil =>
    intro e he
    rcases he with he | he
    · rw [encRow, if_pos he]; exact natRepr_ne_nil e
    · exact absurd rfl he
  | cons c cs ih =>
    intro e _
    rw [encRow]
    by_cases hdot : c = '.'
    · rw [if_pos hdot]; exact ih (e + 1) (Or.inl (by omega))
    · rw [if_neg hdot]
      intro hcon
      rcases List.append_eq_nil.1 hcon with ⟨_, h2⟩
      simp at h2

/-- Characters of an encoded well-formed row are neither whitespace nor `'/'`. -/
theorem encRow_special (row : List Char) (hok : ∀ c ∈ row, cellOK c) :
    noWsL (encRow row 0) ∧ noSlashL (encRow row 0) := by
  constructor
  · intro c hc
    rcases encRow_chars row 0 c hc with h | h
    · exact (digit_not_special h).1
    · exact (cellOK_props (hok c h)).2.1
  · intro c hc
    rcases encRow_chars row 0 c hc with h | h
    · exact (digit_not_special h).2.1
    · exact (cellOK_props (hok c h)).2.2

theorem wf_new : wf Board.new := by decide

theorem joinSlash_ne_nil (r : List Char) (rs : List (List Char)) (h : rs ≠ []) :
    joinSlash (r :: rs) ≠ [] := by
  cases rs with
  | nil => exact absurd rfl h
  | cons r2 rs' => simp [joinSlash]

theorem joinSlash_chars : ∀ (rows : List (List Char)) (c : Char),
    c ∈ joinSlash rows → c = '/' ∨ ∃ r ∈ rows, c ∈ r := by
  intro rows
  induction rows with
  | nil => intro c hc; simp [joinSlash] at hc
  | cons r rs ih =>
    intro c hc
    cases rs with
    | nil => exact Or.inr ⟨r, by simp, by simpa [joinSlash] using hc⟩
    | cons r2 rs' =>
      rw [show joinSlash (r :: r2 :: rs') = r ++ '/' :: joinSlash (r2 :: rs') from rfl] at hc
      rcases List.mem_append.1 hc with h | h
      · exact Or.inr ⟨r, by simp, h⟩
      · rcases List.mem_cons.1 h with h | h
        · exact Or.inl h
        · rcases ih c h with h2 | ⟨r', hr', hcr'⟩
          · exact Or.inl h2
          · exact Or.inr ⟨r', by simp [hr'], hcr'⟩

/-- The six whitespace-separated fields of `to_fen` on a well-formed board. -/
theorem to_fen_split (b : Board) (h : wf b) :
    pySplit (to_fen b).data
      = [joinSlash (b.board.map (fun row => encRow row 0)), b.turn.data,
         b.castling.data, b.ep.data, natRepr b.halfmove, natRepr b.fullmove] := by
  obtain ⟨hlen, hrows, hturn, hcast, hep⟩ := h
  have hcne : b.castling ≠ "" := by
    rcases hcast with h1 | ⟨h1, _⟩
    · rw [h1]; decide
    · intro hcon; rw [hcon] at h1; exact h1 rfl
  have hfen : (to_fen b).data
      = joinSlash (b.board.map (fun row => encRow row 0)) ++ ' ' :: (b.turn.data
        ++ ' ' :: (b.castling.data ++ ' ' :: (b.ep.data
        ++ ' ' :: (natRepr b.halfmove ++ ' ' :: natRepr b.fullmove)))) := by
    rw [to_fen, if_neg hcne]
    simp
  -- field well-formedness
  have hrows8 : b.board ≠ [] := by
    intro hcon; rw [hcon] at hlen; simp at hlen
  have hP_ne : joinSlash (b.board.map (fun row => encRow row 0)) ≠ [] := by
    cases hb : b.board with
    | nil => exact absurd hb hrows8
    | cons r rs =>
      have hrs : rs ≠ [] := by
        intro hcon
        rw [hb, hcon] at hlen
        simp at hlen
      simp only [List.map_cons]
      exact joinSlash_ne_nil _ _ (by simp [hrs])
  have hP_ws : noWsL (joinSlash (b.board.map (fun row => encRow row 0))) := by
    intro c hc
    rcases joinSlash_chars _ c hc with h | ⟨r, hr, hcr⟩
    · subst h; decide
    · rcases List.mem_map.1 hr with ⟨row, hrow, hre⟩
      subst hre
      exact (encRow_special row (fun x hx => (hrows row hrow).2 x hx)).1 c hcr
  have hT : b.turn.data ≠ [] ∧ noWsL b.turn.data := by
    rcases hturn with h1 | h1 <;> rw [h1] <;> exact ⟨by decide, by decide⟩
  have hC : b.castling.data ≠ [] ∧ noWsL b.castling.data := by
    rcases hcast with h1 | ⟨h1, _, h3⟩
    · rw [h1]; exact ⟨by decide, by decide⟩
    · refine ⟨h1, fun c hc => ?_⟩
      have := h3 c hc
      fin_cases this <;> decide
  have hH : natRepr b.halfmove ≠ [] ∧ noWsL (natRepr b.halfmove) :=
    ⟨natRepr_ne_nil _, fun c hc => (digit_not_special (natRepr_digits _ c hc)).1⟩
  have hF : natRepr b.fullmove ≠ [] ∧ noWsL (natRepr b.fullmove) :=
    ⟨natRepr_ne_nil _, fun c hc => (digit_not_special (natRepr_digits _ c hc)).1⟩
  rw [hfen]
  rw [pySplit_sep _ _ hP_ne hP_ws, pySplit_sep _ _ hT.1 hT.2,
    pySplit_sep _ _ hC.1 hC.2, pySplit_sep _ _ hep.1 hep.2,
    pySplit_sep _ _ hH.1 hH.2, pySplit_last _ hF.1 hF.2]

/-- C4 core: reloading a well-formed board from its own FEN restores every
field. -/
theorem load_fen_to_fen (b : Board) (h : wf b) : load_fen b (to_fen b) = b := by
  have hsplit := to_fen_split b h
  obtain ⟨hlen, hrows, hturn, hcast, hep⟩ := h
  have hboard : (splitSlash (joinSlash (b.board.map (fun row => encRow row 0)))).map decRow
      = b.board := by
    rw [splitSlash_joinSlash _ (by
        intro hcon
        have := congrArg List.length hcon
        simp [hlen] at this)
      (by
        intro r hr
        rcases List.mem_map.1 hr with ⟨row, hrow, hre⟩
        subst hre
        exact (encRow_special row (fun x hx => (hrows row hrow).2 x hx)).2)]
    rw [List.map_map]
    have : ∀ row ∈ b.board, (decRow ∘ fun row => encRow row 0) row = id row := by
      intro row hrow
      have := encRow_dec row 0 (fun x hx => (hrows row hrow).2 x hx)
        (by simp [(hrows row hrow).1])
      simpa using this
    rw [List.map_congr_left this, List.map_id]
  have hmkturn : String.mk b.turn.data = b.turn := by
    cases b.turn; rfl
  have hmkcast : String.mk b.castling.data = b.castling := by
    cases b.castling; rfl
  have hmkep : String.mk b.ep.data = b.ep := by
    cases b.ep; rfl
  simp only [load_fen]
  rw [hsplit]
  simp only [List.getD_cons_zero, List.getD_cons_succ, List.length_cons, List.length_nil]
  norm_num
  rw [hboard, hmkturn, hmkcast, hmkep, parseNat_natRepr, parseNat_natRepr]

theorem mem_promoMoves {r c nr nc : Int} {m : Move} (h : m ∈ promoMoves r c nr nc) :
    m.1 = r ∧ m.2.1 = c ∧ m.2.2.1 = nr ∧ m.2.2.2.1 = nc ∧ promoOK m := by
  simp only [promoMoves, List.mem_cons, List.not_mem_nil, or_false] at h
  rcases h with rfl | rfl | rfl | rfl <;> simp [promoOK]

theorem pawnMoves_spec (b : Board) (r c : Int) (turn : String) (m : Move)
    (h : m ∈ pawnMoves b r c turn) :
    m.1 = r ∧ m.2.1 = c ∧ promoOK m ∧
      ((r - m.2.2.1).natAbs = 2 →
        ((r = 6 ∧ m.2.2.1 = 4) ∨ (r = 1 ∧ m.2.2.1 = 3)) ∧ m.2.2.2.1 = c) := by
  simp only [pawnMoves, List.flatMap_cons, List.flatMap_nil, List.append_nil,
    List.mem_append, List.mem_ite_nil_right] at h
  by_cases ht : turn = "w" <;> simp only [ht, reduceCtorEq, reduceIte] at h
  · rcases h with ⟨-, h⟩ | ⟨⟨-, -, h⟩ | ⟨-, -, h⟩⟩
    · by_cases hpr : r + -1 = 0
      · rw [if_pos hpr] at h
        obtain ⟨h1, h2, h3, -, h5⟩ := mem_promoMoves h
        exact ⟨h1, h2, h5, by rw [h3]; intro habs; omega⟩
      · rw [if_neg hpr] at h
        simp only [List.mem_cons, List.mem_ite_nil_right, List.not_mem_nil, or_false] at h
        rcases h with rfl | ⟨hcond, rfl⟩
        · exact ⟨rfl, rfl, Or.inl rfl, by intro habs; simp only at habs; omega⟩
        · have hr : r = 6 := by
            simp only [Bool.and_eq_true, decide_eq_true_eq] at hcond
            exact hcond.1
          refine ⟨rfl, rfl, Or.inl rfl, fun _ => ⟨Or.inl ⟨hr, ?_⟩, rfl⟩⟩
          show r + 2 * -1 = 4
          omega
    · by_cases hpr : r + -1 = 0
      · rw [if_pos hpr] at h
        obtain ⟨h1, h2, h3, -, h5⟩ := mem_promoMoves h
        exact ⟨h1, h2, h5, by rw [h3]; intro habs; omega⟩
      · rw [if_neg hpr] at h
        simp only [List.mem_singleton] at h
        subst h
        exact ⟨rfl, rfl, Or.inl rfl, by intro habs; simp only at habs; omega⟩
    · by_cases hpr : r + -1 = 0
      · rw [if_pos hpr] at h
        obtain ⟨h1, h2, h3, -, h5⟩ := mem_promoMoves h
        exact ⟨h1, h2, h5, by rw [h3]; intro habs; omega⟩
      · rw [if_neg hpr] at h
        simp only [List.mem_singleton] at h
        subst h
        exact ⟨rfl, rfl, Or.inl rfl, by intro habs; simp only at habs; omega⟩
  · rcases h with ⟨-, h⟩ | ⟨⟨-, -, h⟩ | ⟨-, -, h⟩⟩
    · by_cases hpr : r + 1 = 7
      · rw [if_pos hpr] at h
        obtain ⟨h1, h2, h3, -, h5⟩ := mem_promoMoves h
        exact ⟨h1, h2, h5, by rw [h3]; intro habs; omega⟩
      · rw [if_neg hpr] at h
        simp only [List.mem_cons, List.mem_ite_nil_right, List.not_mem_nil, or_false] at h
        rcases h with rfl | ⟨hcond, rfl⟩
        · exact ⟨rfl, rfl, Or.inl rfl, by intro habs; simp only at habs; omega⟩
        · have hr : r = 1 := by
            simp only [Bool.and_eq_true, decide_eq_true_eq] at hcond
            exact hcond.1
          refine ⟨rfl, rfl, Or.inl rfl, fun _ => ⟨Or.inr ⟨hr, ?_⟩, rfl⟩⟩
          show r + 2 * 1 = 3
          omega
    · by_cases hpr : r + 1 = 7
      · rw [if_pos hpr] at h
        obtain ⟨h1, h2, h3, -, h5⟩ := mem_promoMoves h
        exact ⟨h1, h2, h5, by rw [h3]; intro habs; omega⟩
      · rw [if_neg hpr] at h
        simp only [List.mem_singleton] at h
        subst h
        exact ⟨rfl, rfl, Or.inl rfl, by intro habs; simp only at habs; omega⟩
    · by_cases hpr : r + 1 = 7
      · rw [if_pos hpr] at h
        obtain ⟨h1, h2, h3, -, h5⟩ := mem_promoMoves h
        exact ⟨h1, h2, h5, by rw [h3]; intro habs; omega⟩
      · rw [if_neg hpr] at h
        simp only [List.mem_singleton] at h
        subst h
        exact ⟨rfl, rfl, Or.inl rfl, by intro habs; simp only at habs; omega⟩

theorem knightMoves_spec (b : Board) (r c : Int) (piece : Char) (m : Move)
    (h : m ∈ knightMoves b r c piece) :
    m.1 = r ∧ m.2.1 = c ∧ m.2.2.2.2 = none := by
  simp only [knightMoves, List.mem_flatMap, List.mem_ite_nil_right] at h
  obtain ⟨dd, -, -, hm⟩ := h
  simp only [List.mem_singleton] at hm
  subst hm
  exact ⟨rfl, rfl, rfl⟩

theorem rayMoves_spec (b : Board) (r c : Int) (turn : String) (dr dc : Int) :
    ∀ (fuel : Nat) (nr nc : Int) (m : Move), m ∈ rayMoves b r c turn dr dc fuel nr nc →
      m.1 = r ∧ m.2.1 = c ∧ m.2.2.2.2 = none := by
  intro fuel
  induction fuel with
  | zero => intro nr nc m h; simp [rayMoves] at h
  | succ fuel ih =>
    intro nr nc m h
    rw [rayMoves] at h
    by_cases hv : valid nr nc = true
    · rw [if_pos hv] at h
      by_cases hdot : cellB b.board nr nc = '.'
      · rw [if_pos hdot] at h
        rcases List.mem_cons.1 h with rfl | h2
        · exact ⟨rfl, rfl, rfl⟩
        · exact ih (nr + dr) (nc + dc) m h2
      · rw [if_neg hdot] at h
        by_cases hen : enemy (cellB b.board nr nc) turn = true
        · rw [if_pos hen] at h
          simp only [List.mem_singleton] at h
          subst h
          exact ⟨rfl, rfl, rfl⟩
        · rw [if_neg hen] at h
          simp at h
    · rw [if_neg hv] at h
      simp at h

theorem slideMoves_spec (b : Board) (r c : Int) (turn : String) (dirs : List (Int × Int))
    (m : Move) (h : m ∈ slideMoves b r c turn dirs) :
    m.1 = r ∧ m.2.1 = c ∧ m.2.2.2.2 = none := by
  simp only [slideMoves, List.mem_flatMap] at h
  obtain ⟨dd, -, hm⟩ := h
  exact rayMoves_spec b r c turn dd.1 dd.2 8 _ _ m hm

theorem kingMoves_spec (b : Board) (r c : Int) (piece : Char) (turn : String) (m : Move)
    (h : m ∈ kingMoves b r c piece turn) :
    m.1 = r ∧ m.2.1 = c ∧ m.2.2.2.2 = none := by
  simp only [kingMoves, List.mem_append, List.mem_flatMap, List.mem_ite_nil_right] at h
  rcases h with ⟨dd, -, -, hm⟩ | ⟨-, hm⟩
  · simp only [List.mem_singleton] at hm
    subst hm
    exact ⟨rfl, rfl, rfl⟩
  · rcases hm with ⟨-, hm⟩ | ⟨-, hm⟩ <;>
      simp only [List.mem_singleton] at hm <;>
      subst hm <;>
      exact ⟨rfl, rfl, rfl⟩

/-- Every pseudo-legal move starts at the square it was generated from, its
promotion is absent or one of `qrbn`, and a two-row pawn jump is a double push
from the home rank. -/
theorem pseudo_spec (b : Board) (r c : Int) (m : Move) (h : m ∈ pseudo b r c) :
    m.1 = r ∧ m.2.1 = c ∧ promoOK m ∧
      ((cellB b.board r c).toLower = 'p' → (r - m.2.2.1).natAbs = 2 →
        ((r = 6 ∧ m.2.2.1 = 4) ∨ (r = 1 ∧ m.2.2.1 = 3)) ∧ m.2.2.2.1 = c) := by
  rw [pseudo] at h
  by_cases hdot : cellB b.board r c = '.'
  · rw [if_pos hdot] at h; simp at h
  · rw [if_neg hdot] at h
    set piece := cellB b.board r c with hpiece
    set p := piece.toLower with hp
    by_cases h1 : p = 'p'
    · rw [if_pos h1] at h
      obtain ⟨ha, hb, hc, hd⟩ := pawnMoves_spec b r c _ m h
      exact ⟨ha, hb, hc, fun _ => hd⟩
    · rw [if_neg h1] at h
      have hno : m.1 = r ∧ m.2.1 = c ∧ m.2.2.2.2 = none →
          m.1 = r ∧ m.2.1 = c ∧ promoOK m ∧
            ((cellB b.board r c).toLower = 'p' → (r - m.2.2.1).natAbs = 2 →
              ((r = 6 ∧ m.2.2.1 = 4) ∨ (r = 1 ∧ m.2.2.1 = 3)) ∧ m.2.2.2.1 = c) :=
        fun ⟨ha, hb, hc⟩ => ⟨ha, hb, Or.inl hc, fun hpp _ => absurd hpp h1⟩
      by_cases h2 : p = 'n'
      · rw [if_pos h2] at h; exact hno (knightMoves_spec b r c piece m h)
      · rw [if_neg h2] at h
        by_cases h3 : p = 'b'
        · rw [if_pos h3] at h; exact hno (slideMoves_spec b r c _ _ m h)
        · rw [if_neg h3] at h
          by_cases h4 : p = 'r'
          · rw [if_pos h4] at h; exact hno (slideMoves_spec b r c _ _ m h)
          · rw [if_neg h4] at h
            by_cases h5 : p = 'q'
            · rw [if_pos h5] at h; exact hno (slideMoves_spec b r c _ _ m h)
            · rw [if_neg h5] at h
              by_cases h6 : p = 'k'
              · rw [if_pos h6] at h; exact hno (kingMoves_spec b r c piece _ m h)
              · rw [if_neg h6] at h; simp at h

/-- Moves in `legal_movesT` come from `pseudo` at an on-board origin square. -/
theorem mem_legal_movesT (b : Board) (t : String) (m : Move) (h : m ∈ legal_movesT b t) :
    ∃ r c : Nat, r < 8 ∧ c < 8 ∧ m ∈ pseudo b r c ∧
      in_checkT (apply_raw b m.1 m.2.1 m.2.2.1 m.2.2.2.1 m.2.2.2.2) t = false := by
  simp only [legal_movesT, List.mem_flatMap, List.mem_range] at h
  obtain ⟨r, hr, c, hc, hm⟩ := h
  by_cases hdot : cellB b.board r c = '.'
  · rw [if_pos hdot] at hm; simp at hm
  · rw [if_neg hdot] at hm
    by_cases hside : ((t = "w") ↔ (cellB b.board ↑r ↑c).isUpper = true)
    · rw [if_pos hside] at hm
      rcases List.mem_filter.1 hm with ⟨hmem, hchk⟩
      refine ⟨r, c, hr, hc, hmem, ?_⟩
      simpa using hchk
    · rw [if_neg hside] at hm
      simp at hm

/-- Promotion components of fully legal moves are absent or `qrbn`, origins and
pawn double pushes are constrained as in `pseudo_spec`. -/
theorem mem_legal_spec (b : Board) (t : String) (m : Move) (h : m ∈ legal_movesT b t) :
    (0 ≤ m.1 ∧ m.1 < 8 ∧ 0 ≤ m.2.1 ∧ m.2.1 < 8) ∧ promoOK m ∧
      ((cellB b.board m.1 m.2.1).toLower = 'p' → (m.1 - m.2.2.1).natAbs = 2 →
        ((m.1 = 6 ∧ m.2.2.1 = 4) ∨ (m.1 = 1 ∧ m.2.2.1 = 3)) ∧ m.2.2.2.1 = m.2.1) := by
  obtain ⟨r, c, hr, hc, hmem, -⟩ := mem_legal_movesT b t m h
  obtain ⟨ha, hb, hpok, hpawn⟩ := pseudo_spec b r c m hmem
  refine ⟨⟨by omega, by omega, by omega, by omega⟩, hpok, ?_⟩
  rw [ha, hb]
  exact hpawn

theorem cellB_ok {bd : List (List Char)} (h : ∀ row ∈ bd, ∀ c ∈ row, cellOK c)
    (r c : Int) : cellOK (cellB bd r c) := by
  rw [cellB, List.getD_eq_getElem?_getD]
  rcases hc : (bd.getD r.toNat [])[c.toNat]? with _ | x
  · simp [cellOK]
  · simp only [Option.getD_some]
    have hxrow : x ∈ bd.getD r.toNat [] := List.getElem?_mem hc
    rw [List.getD_eq_getElem?_getD] at hxrow
    rcases hr : bd[r.toNat]? with _ | row
    · rw [hr] at hxrow
      simp at hxrow
    · rw [hr] at hxrow
      simp only [Option.getD_some] at hxrow
      exact h row (List.getElem?_mem hr) x hxrow

theorem setCell_boardOK {bd : List (List Char)} {ch : Char} (h : boardOK bd)
    (hch : cellOK ch) (r c : Int) : boardOK (setCell bd r c ch) := by
  obtain ⟨hlen, hrows⟩ := h
  by_cases hr : r.toNat < bd.length
  case neg =>
    rw [setCell, List.set_eq_of_length_le (by omega)]
    exact ⟨hlen, hrows⟩
  case pos =>
    constructor
    · rw [setCell, List.length_set, hlen]
    · intro row hrow
      rcases List.mem_or_eq_of_mem_set hrow with hold | hnew
      · exact hrows row hold
      · subst hnew
        rw [List.getD_eq_getElem?_getD]
        rcases hget : bd[r.toNat]? with _ | oldRow
        · rw [List.getElem?_eq_none_iff] at hget
          omega
        · simp only [Option.getD_some]
          have hod := hrows oldRow (List.getElem?_mem hget)
          constructor
          · simp [List.length_set, hod.1]
          · intro x hx
            rcases List.mem_or_eq_of_mem_set hx with hx | hx
            · exact hod.2 x hx
            · subst hx; exact hch

theorem foldl_inv {α β : Type} (P : α → Prop) (f : α → β → α)
    (hstep : ∀ a x, P a → P (f a x)) : ∀ (l : List β) (a : α), P a → P (l.foldl f a) := by
  intro l
  induction l with
  | nil => intro a ha; exact ha
  | cons x xs ih => intro a ha; exact ih (f a x) (hstep a x ha)

theorem ite_boardOK {c : Prop} [Decidable c] {x y : List (List Char)}
    (hx : boardOK x) (hy : boardOK y) : boardOK (if c then x else y) := by
  split_ifs <;> assumption

theorem bdStage1_ok (b : Board) (fr fc tr tc : Int) (hB : boardOK b.board) :
    boardOK (bdStage1 b fr fc tr tc) := by
  unfold bdStage1
  exact ite_boardOK (ite_boardOK (setCell_boardOK hB (by decide) _ _) hB) hB

theorem bdStage2_ok (b : Board) (fr fc tr tc : Int) (hB : boardOK b.board) :
    boardOK (bdStage2 b fr fc tr tc) := by
  have h1 := bdStage1_ok b fr fc tr tc hB
  unfold bdStage2
  refine ite_boardOK (ite_boardOK ?_ (ite_boardOK ?_ h1)) h1 <;>
    exact setCell_boardOK (setCell_boardOK h1 (by decide) _ _)
      (by split_ifs <;> decide) _ _

theorem bdStage3_ok (b : Board) (fr fc tr tc : Int) (hB : boardOK b.board) :
    boardOK (bdStage3 b fr fc tr tc) := by
  have hcells : ∀ r c : Int, cellOK (cellB b.board r c) :=
    fun r c => cellB_ok (fun row hr x hx => (hB.2 row hr).2 x hx) r c
  unfold bdStage3
  exact setCell_boardOK (setCell_boardOK (bdStage2_ok b fr fc tr tc hB)
    (hcells _ _) _ _) (by decide) _ _

theorem boardAfter_ok (b : Board) (fr fc tr tc : Int) (promo : Option Char)
    (hB : boardOK b.board)
    (hpok : promo = none ∨ promo = some 'q' ∨ promo = some 'r' ∨ promo = some 'b' ∨
      promo = some 'n') :
    boardOK (boardAfter b fr fc tr tc promo) := by
  have h3 := bdStage3_ok b fr fc tr tc hB
  rcases hpok with rfl | rfl | rfl | rfl | rfl <;> unfold boardAfter
  · exact ite_boardOK (setCell_boardOK h3 (by split_ifs <;> decide) _ _) h3
  all_goals exact setCell_boardOK h3 (by split_ifs <;> decide) _ _

theorem eraseAtFold_pred (P : Char → Prop) (r c : Int) (cas : List Char)
    (h : ∀ x ∈ cas, P x) : ∀ x ∈ eraseAtFold r c cas, P x := by
  unfold eraseAtFold
  refine foldl_inv (fun l => ∀ x ∈ l, P x) _ ?_ casPairs cas h
  intro l rrf hP x hx
  split_ifs at hx
  · exact hP x (List.erase_subset _ _ hx)
  · exact hP x hx

theorem eraseAtFold_nodup (r c : Int) (cas : List Char) (h : cas.Nodup) :
    (eraseAtFold r c cas).Nodup := by
  unfold eraseAtFold
  refine foldl_inv List.Nodup _ ?_ casPairs cas h
  intro l rrf hl
  split_ifs
  · exact hl.erase _
  · exact hl

theorem mem_casAfter (b : Board) (fr fc tr tc : Int) :
    ∀ x ∈ casAfter b fr fc tr tc, x ∈ b.castling.data ∧ x ≠ '-' := by
  have base : ∀ x ∈ ((if b.castling = "" then "" else b.castling).data.filter
      (fun x => x ≠ '-')), x ∈ b.castling.data ∧ x ≠ '-' := by
    intro x hx
    rcases List.mem_filter.1 hx with ⟨hmem, hne⟩
    refine ⟨?_, by simpa using hne⟩
    by_cases hc : b.castling = ""
    · rw [if_pos hc] at hmem; simp at hmem
    · rw [if_neg hc] at hmem; exact hmem
  unfold casAfter
  set c0 := ((if b.castling = "" then "" else b.castling).data.filter (fun x => x ≠ '-'))
    with hc0
  apply eraseAtFold_pred
  split_ifs <;>
    (repeat' first
      | exact base
      | apply eraseAtFold_pred
      | (intro x hx; exact base x (List.mem_of_mem_filter hx)))

theorem casAfter_nodup (b : Board) (fr fc tr tc : Int) (h : b.castling.data.Nodup) :
    (casAfter b fr fc tr tc).Nodup := by
  have base : ((if b.castling = "" then "" else b.castling).data.filter
      (fun x => x ≠ '-')).Nodup := by
    by_cases hc : b.castling = ""
    · rw [if_pos hc]; simp
    · rw [if_neg hc]; exact h.filter _
  unfold casAfter
  set c0 := ((if b.castling = "" then "" else b.castling).data.filter (fun x => x ≠ '-'))
    with hc0
  apply eraseAtFold_nodup
  split_ifs <;>
    (repeat' first
      | exact base
      | exact base.filter _
      | apply eraseAtFold_nodup)

theorem epAfterMove_wf (b : Board) (fr fc tr tc : Int) (hfc0 : 0 ≤ fc) (hfc8 : fc < 8)
    (hpair : (cellB b.board fr fc).toLower = 'p' → (fr - tr).natAbs = 2 →
      (fr = 6 ∧ tr = 4) ∨ (fr = 1 ∧ tr = 3)) :
    (epAfterMove b fr fc tr tc).data ≠ [] ∧ noWsL (epAfterMove b fr fc tr tc).data := by
  unfold epAfterMove
  split_ifs with h
  · have hfile : (Char.ofNat (97 + fc).toNat).isWhitespace = false := by
      interval_cases fc <;> decide
    rcases hpair h.1 h.2 with ⟨rfl, rfl⟩ | ⟨rfl, rfl⟩
    · refine ⟨by simp, ?_⟩
      intro x hx
      simp only [String.data] at hx
      rcases List.mem_cons.1 hx with rfl | hx
      · exact hfile
      · have : intRepr (8 - Int.fdiv (6 + 4) 2) = ['3'] := by decide
        rw [this] at hx
        simp at hx
        subst hx
        decide
    · refine ⟨by simp, ?_⟩
      intro x hx
      simp only [String.data] at hx
      rcases List.mem_cons.1 hx with rfl | hx
      · exact hfile
      · have : intRepr (8 - Int.fdiv (1 + 3) 2) = ['6'] := by decide
        rw [this] at hx
        simp at hx
        subst hx
        decide
  · exact ⟨by decide, by decide⟩

theorem turnOK_ite (t : String) :
    (if t = "w" then "b" else "w") = "w" ∨ (if t = "w" then "b" else "w") = "b" := by
  split_ifs <;> simp

theorem castlingOK_ite (cas : List Char) (hnd : cas.Nodup)
    (hsub : ∀ c ∈ cas, c ∈ ['K','Q','k','q']) :
    (if cas = [] then "-" else String.mk cas) = "-" ∨
      ((if cas = [] then "-" else String.mk cas).data ≠ [] ∧
        (if cas = [] then "-" else String.mk cas).data.Nodup ∧
        ∀ c ∈ (if cas = [] then "-" else String.mk cas).data, c ∈ ['K','Q','k','q']) := by
  by_cases hnil : cas = []
  · rw [if_pos hnil]; exact Or.inl rfl
  · rw [if_neg hnil]
    exact Or.inr ⟨by simpa using hnil, by simpa using hnd, by simpa using hsub⟩

/-- `_apply_raw` preserves the state invariant on any legal move. -/
theorem wf_apply_raw (b : Board) (fr fc tr tc : Int) (promo : Option Char) (hwf : wf b)
    (hm : (fr, fc, tr, tc, promo) ∈ legal_moves b) :
    wf (apply_raw b fr fc tr tc promo) := by
  obtain ⟨hlen, hrows, hturn, hcast, hep⟩ := hwf
  obtain ⟨hbox, hpok, hpawn⟩ := mem_legal_spec b b.turn (fr, fc, tr, tc, promo) hm
  dsimp only at hbox hpok hpawn
  have hcastData : b.castling.data.Nodup := by
    rcases hcast with h1 | ⟨-, h2, -⟩
    · rw [h1]; decide
    · exact h2
  have hpok' : promo = none ∨ promo = some 'q' ∨ promo = some 'r' ∨ promo = some 'b' ∨
      promo = some 'n' := by
    simpa [promoOK] using hpok
  have hB := boardAfter_ok b fr fc tr tc promo ⟨hlen, hrows⟩ hpok'
  have hsub : ∀ c ∈ casAfter b fr fc tr tc, c ∈ ['K','Q','k','q'] := by
    intro c hc
    obtain ⟨hmem, hne⟩ := mem_casAfter b fr fc tr tc c hc
    rcases hcast with h1 | ⟨-, -, h3⟩
    · rw [h1] at hmem
      simp at hmem
      exact absurd hmem hne
    · exact h3 c hmem
  exact ⟨hB.1, hB.2, turnOK_ite b.turn,
    castlingOK_ite _ (casAfter_nodup b fr fc tr tc hcastData) hsub,
    epAfterMove_wf b fr fc tr tc hbox.2.2.1 hbox.2.2.2 (fun hp hd => (hpawn hp hd).1)⟩

theorem addCap_core (b1 : Board) (cap : Option Char) :
    (addCap b1 cap).board = b1.board ∧ (addCap b1 cap).turn = b1.turn ∧
      (addCap b1 cap).castling = b1.castling ∧ (addCap b1 cap).ep = b1.ep := by
  cases cap with
  | none => simp [addCap]
  | some x =>
    simp only [addCap]
    split_ifs <;> simp

theorem applyCore_board (b : Board) (u : String) (fr fc tr tc : Int)
    (promo : Option Char) (legal : List Move) :
    ((applyCore b u fr fc tr tc promo legal).2.2).board
      = (apply_raw b fr fc tr tc promo).board := by
  simp only [applyCore]
  rw [(addCap_core _ _).1]
  rfl

theorem applyCore_turn (b : Board) (u : String) (fr fc tr tc : Int)
    (promo : Option Char) (legal : List Move) :
    ((applyCore b u fr fc tr tc promo legal).2.2).turn
      = (apply_raw b fr fc tr tc promo).turn := by
  simp only [applyCore]
  rw [(addCap_core _ _).2.1]
  rfl

theorem applyCore_castling (b : Board) (u : String) (fr fc tr tc : Int)
    (promo : Option Char) (legal : List Move) :
    ((applyCore b u fr fc tr tc promo legal).2.2).castling
      = (apply_raw b fr fc tr tc promo).castling := by
  simp only [applyCore]
  rw [(addCap_core _ _).2.2.1]
  rfl

theorem applyCore_ep (b : Board) (u : String) (fr fc tr tc : Int)
    (promo : Option Char) (legal : List Move) :
    ((applyCore b u fr fc tr tc promo legal).2.2).ep
      = (apply_raw b fr fc tr tc promo).ep := by
  simp only [applyCore]
  rw [(addCap_core _ _).2.2.2]
  rfl

theorem wf_of_fields {x y : Board} (hb : x.board = y.board) (ht : x.turn = y.turn)
    (hc : x.castling = y.castling) (he : x.ep = y.ep) (h : wf y) : wf x := by
  unfold wf at h ⊢
  rw [hb, ht, hc, he]
  exact h

/-- A successful `apply_uci` preserves the state invariant. -/
theorem wf_apply_uci (b : Board) (uci : String) (out : String × Option Char × Board)
    (hwf : wf b) (h : apply_uci b uci = .ok out) : wf out.2.2 := by
  unfold apply_uci at h
  cases hp : parseUci uci with
  | error e => rw [hp] at h; simp at h
  | ok q =>
    obtain ⟨fr, fc, tr, tc, promo⟩ := q
    rw [hp] at h
    dsimp only at h
    split_ifs at h with h1 h2
    · have hout : out = applyCore b uci fr fc tr tc promo (legal_moves b) := by
        injection h with h'
        exact h'.symm
      subst hout
      exact wf_of_fields (applyCore_board ..) (applyCore_turn ..) (applyCore_castling ..)
        (applyCore_ep ..) (wf_apply_raw b fr fc tr tc promo ⟨hwf.1, hwf.2.1, hwf.2.2.1,
          hwf.2.2.2.1, hwf.2.2.2.2⟩ h1)
    · have hout : out = applyCore b uci fr fc tr tc (some 'q') (legal_moves b) := by
        injection h with h'
        exact h'.symm
      subst hout
      exact wf_of_fields (applyCore_board ..) (applyCore_turn ..) (applyCore_castling ..)
        (applyCore_ep ..) (wf_apply_raw b fr fc tr tc (some 'q') ⟨hwf.1, hwf.2.1, hwf.2.2.1,
          hwf.2.2.2.1, hwf.2.2.2.2⟩ h2.2)

theorem reachable_wf (b : Board) (h : Reachable b) : wf b := by
  induction h with
  | start => exact wf_new
  | step b uci out _ happ ih => exact wf_apply_uci b uci out ih happ

theorem findInRow_none (k : Char) : ∀ (row : List Char) (c : Int),
    (∀ x ∈ row, x ≠ k) → findInRow k row c = none := by
  intro row
  induction row with
  | nil => intro c _; rfl
  | cons x xs ih =>
    intro c h
    rw [findInRow, if_neg (h x (by simp))]
    exact ih (c + 1) (fun y hy => h y (by simp [hy]))

theorem findInRows_none (k : Char) : ∀ (rows : List (List Char)) (r : Int),
    (∀ row ∈ rows, ∀ x ∈ row, x ≠ k) → findInRows k rows r = none := by
  intro rows
  induction rows with
  | nil => intro r _; rfl
  | cons row rest ih =>
    intro r h
    rw [findInRows, findInRow_none k row 0 (h row (by simp))]
    exact ih (r + 1) (fun row' hr x hx => h row' (by simp [hr]) x hx)

/-- A side with no king on the board: `find_king` is `None` and `in_check` is
`False`. -/
theorem kingless_spec (b : Board) (t : String)
    (h : ∀ row ∈ b.board, ∀ x ∈ row, x ≠ (if t = "w" then 'K' else 'k')) :
    find_king b t = none ∧ in_checkT b t = false := by
  have hfk : find_king b t = none := by
    rw [find_king]
    exact findInRows_none _ b.board 0 h
  refine ⟨hfk, ?_⟩
  rw [in_checkT, hfk]

theorem bestmove_scan_none : ∀ evs : List QEvent, noUsableLine evs →
    bestmove_scan evs = none := by
  intro evs
  induction evs with
  | nil => intro _; rfl
  | cons e rest ih =>
    intro h
    have htail : noUsableLine rest := fun x hx => h x (by simp [hx])
    cases e with
    | got line =>
      have hline : ¬ usableBestmove line := h (QEvent.got line) (by simp)
      rw [bestmove_scan]
      by_cases h1 : line = ""
      · rw [if_pos h1]; exact ih htail
      · rw [if_neg h1]
        by_cases h2 : strLead line ("info ") = true
        · rw [if_pos h2]; exact ih htail
        · rw [if_neg h2]
          by_cases h3 : strLead line ("bestmove") = true
          · rw [if_pos h3]
            have htok : ¬ tokUsable (secondTok line) := by
              intro hcon
              exact hline ⟨h1, by simpa using h2, h3, hcon⟩
            rcases hm : (pySplit line.data).map String.mk with _ | ⟨t0, ts⟩
            · rfl
            · cases ts with
              | nil => rfl
              | cons tok ts' =>
                have hsec : secondTok line = some tok := by
                  unfold secondTok
                  rw [hm]
                rw [hsec] at htok
                have hmem : tok ∈ noMoveSentinels := by
                  by_contra hno
                  exact htok hno
                dsimp only
                rw [if_pos hmem]
          · rw [if_neg h3]; exact ih htail
    | timedOut dead =>
      rw [bestmove_scan]
      by_cases hd : dead = true
      · rw [if_pos hd]
      · rw [if_neg hd]; exact ih htail

theorem bestmove_scan_dead : ∀ (pre rest : List QEvent), noBreakLine pre →
    bestmove_scan (pre ++ QEvent.timedOut true :: rest) = none := by
  intro pre
  induction pre with
  | nil => intro rest _; rfl
  | cons e pre2 ih =>
    intro rest h
    have htail : noBreakLine pre2 := fun x hx => h x (by simp [hx])
    cases e with
    | got line =>
      have hline : ¬ breaksLoop line := h (QEvent.got line) (by simp)
      rw [List.cons_append, bestmove_scan]
      by_cases h1 : line = ""
      · rw [if_pos h1]; exact ih rest htail
      · rw [if_neg h1]
        by_cases h2 : strLead line ("info ") = true
        · rw [if_pos h2]; exact ih rest htail
        · rw [if_neg h2]
          have h3 : ¬ strLead line ("bestmove") = true := by
            intro hcon
            exact hline ⟨h1, by simpa using h2, hcon⟩
          rw [if_neg h3]
          exact ih rest htail
    | timedOut dead =>
      rw [List.cons_append, bestmove_scan]
      by_cases hd : dead = true
      · rw [if_pos hd]
      · rw [if_neg hd]; exact ih rest htail

theorem wait_scan_no_lines (kw : String) : ∀ evs : List QEvent, noGotLine evs →
    wait_scan kw evs = false := by
  intro evs
  induction evs with
  | nil => intro _; rfl
  | cons e rest ih =>
    intro h
    cases e with
    | got line =>
      have := h (QEvent.got line) (by simp)
      simp [lineOf] at this
    | timedOut dead =>
      rw [wait_scan]
      by_cases hd : dead = true
      · rw [if_pos hd]
      · rw [if_neg hd]
        exact ih (fun x hx => h x (by simp [hx]))

theorem intRepr_ne_nil (i : Int) : intRepr i ≠ [] := by
  unfold intRepr
  split_ifs
  · simp
  · exact natRepr_ne_nil _

/-- The en-passant field of an applied move: set exactly on a two-square pawn
move, to the passed-over square. -/
theorem apply_raw_ep_spec (b : Board) (fr fc tr tc : Int) (promo : Option Char) :
    ((apply_raw b fr fc tr tc promo).ep ≠ "-" ↔
      ((cellB b.board fr fc).toLower = 'p' ∧ (fr - tr).natAbs = 2)) ∧
    (((cellB b.board fr fc).toLower = 'p' ∧ (fr - tr).natAbs = 2) →
      (apply_raw b fr fc tr tc promo).ep
        = String.mk (Char.ofNat (97 + fc).toNat :: intRepr (8 - Int.fdiv (fr + tr) 2))) := by
  have hep : (apply_raw b fr fc tr tc promo).ep = epAfterMove b fr fc tr tc := rfl
  rw [hep]
  unfold epAfterMove
  by_cases h : (cellB b.board fr fc).toLower = 'p' ∧ (fr - tr).natAbs = 2
  · rw [if_pos h]
    refine ⟨⟨fun _ => h, fun _ => ?_⟩, fun _ => rfl⟩
    intro hcon
    have : Char.ofNat (97 + fc).toNat :: intRepr (8 - Int.fdiv (fr + tr) 2) = ['-'] := by
      have := congrArg String.data hcon
      simpa using this
    have h2 : intRepr (8 - Int.fdiv (fr + tr) 2) = [] := by
      injection this with _ h2
    exact intRepr_ne_nil _ h2
  · rw [if_neg h]
    exact ⟨by simp [h], fun hc => absurd hc h⟩

/-- `apply_uci` on a well-formed but illegal move (with the queen-default
fallback also unavailable): the illegal-move error is raised and the state is
untouched. -/
theorem apply_uci_illegal (b : Board) (uci : String) (fr fc tr tc : Int)
    (promo : Option Char) (hp : parseUci uci = .ok (fr, fc, tr, tc, promo))
    (hnl : (fr, fc, tr, tc, promo) ∉ legal_moves b)
    (hnq : ¬ (promo = none ∧ (fr, fc, tr, tc, some 'q') ∈ legal_moves b)) :
    apply_uci b uci = .error ("Illegal move: " ++ uci) ∧ applyState b uci = b := by
  have h1 : apply_uci b uci = .error ("Illegal move: " ++ uci) := by
    unfold apply_uci
    rw [hp]
    dsimp only
    rw [if_neg hnl, if_neg hnq]
  refine ⟨h1, ?_⟩
  unfold applyState
  rw [h1]

theorem singleMinor_iff (l : List Char) :
    (l = ['b'] ∨ l = ['n']) ↔ singleMinor l := by
  unfold singleMinor
  cases l with
  | nil => simp
  | cons x xs =>
    cases xs with
    | nil =>
      simp only [List.cons.injEq, and_true, List.length_singleton, List.head?_cons,
        Option.some.injEq, true_and]
      constructor
      · rintro (rfl | rfl) <;> simp
      · rintro (rfl | rfl) <;> simp
    | cons y ys => simp

theorem insufficient_iff (b : Board) : insufficient b = true ↔ insufficientSpec b := by
  unfold insufficient insufficientSpec
  simp only [decide_eq_true_eq, List.length_eq_zero, ← singleMinor_iff]

/-- `Board.game_result` agrees with the specification's classification cascade
on every board. -/
theorem game_result_eq_classifySpec (b : Board) : game_result b = classifySpec b := by
  unfold game_result classifySpec
  simp only [insufficient_iff]

theorem String.append_empty_own (s : String) : s ++ "" = s := by
  cases s with
  | mk data => show String.mk (data ++ []) = String.mk data; rw [List.append_nil]

/-- The SAN string returned by a successful `apply_uci` is the bare SAN plus
the check/checkmate suffix of the resulting position. -/
theorem applyCore_san (b : Board) (u : String) (fr fc tr tc : Int) (promo : Option Char)
    (legal : List Move) :
    (applyCore b u fr fc tr tc promo legal).1
      = build_san b fr fc tr tc promo legal ++ checkSuffix (applied b fr fc tr tc promo) := by
  simp only [applyCore, checkSuffix]
  by_cases h : in_check (applied b fr fc tr tc promo) = true
  · rw [if_pos h, if_pos h]
  · rw [if_neg h, if_neg h, String.append_empty_own]

theorem disambig_eq (b : Board) (kind : Char) (fr fc tr tc : Int) (promo : Option Char)
    (legal : List Move) :
    (let ambig := legal.filter (fun m => m.2.2.1 = tr ∧ m.2.2.2.1 = tc ∧
        m.2.2.2.2 = promo ∧ (cellB b.board m.1 m.2.1).toLower = kind ∧
        ¬ (m.1 = fr ∧ m.2.1 = fc))
      if ambig = [] then ([] : List Char)
      else
        let sf := ambig.any (fun m => m.2.1 == fc)
        let sr := ambig.any (fun m => m.1 == fr)
        if !sf then [Char.ofNat (97 + fc).toNat]
        else if !sr then intRepr (8 - fr)
        else Char.ofNat (97 + fc).toNat :: intRepr (8 - fr))
    = specDisambig b kind fr fc tr tc promo legal := by
  unfold specDisambig
  have hfil : legal.filter (fun m => decide (couldAlsoReach b kind fr fc tr tc promo m))
      = legal.filter (fun m => decide (m.2.2.1 = tr ∧ m.2.2.2.1 = tc ∧
        m.2.2.2.2 = promo ∧ (cellB b.board m.1 m.2.1).toLower = kind ∧
        ¬ (m.1 = fr ∧ m.2.1 = fc))) := by
    apply List.filter_congr
    intro m _
    simp [couldAlsoReach]
  rw [hfil]
  set amb := legal.filter (fun m => decide (m.2.2.1 = tr ∧ m.2.2.2.1 = tc ∧
    m.2.2.2.2 = promo ∧ (cellB b.board m.1 m.2.1).toLower = kind ∧
    ¬ (m.1 = fr ∧ m.2.1 = fc))) with hamb
  by_cases hnil : amb = []
  · rw [if_pos hnil, if_pos hnil]
  · rw [if_neg hnil, if_neg hnil]
    by_cases hf : ∀ m ∈ amb, ¬ m.2.1 = fc
    · have hsf : amb.any (fun m => m.2.1 == fc) = false := by
        rw [List.any_eq_false]
        intro m hm
        simpa using hf m hm
      rw [if_pos hf, hsf]
      simp [fileCharOf]
    · have hsf : amb.any (fun m => m.2.1 == fc) = true := by
        rw [List.any_eq_true]
        push_neg at hf
        obtain ⟨m, hm, hmf⟩ := hf
        exact ⟨m, hm, by simpa using hmf⟩
      rw [if_neg hf, hsf]
      by_cases hr : ∀ m ∈ amb, ¬ m.1 = fr
      · have hsr : amb.any (fun m => m.1 == fr) = false := by
          rw [List.any_eq_false]
          intro m hm
          simpa using hr m hm
        rw [if_pos hr, hsr]
        simp [rankCharsOf]
      · have hsr : amb.any (fun m => m.1 == fr) = true := by
          rw [List.any_eq_true]
          push_neg at hr
          obtain ⟨m, hm, hmf⟩ := hr
          exact ⟨m, hm, by simpa using hmf⟩
        rw [if_neg hr, hsr]
        simp [fileCharOf, rankCharsOf]

/-- `Board._build_san` renders exactly the specification's SAN format. -/
theorem build_san_eq_spec (b : Board) (fr fc tr tc : Int) (promo : Option Char)
    (legal : List Move) :
    build_san b fr fc tr tc promo legal = sanSpecCore b fr fc tr tc promo legal := by
  unfold build_san sanSpecCore
  by_cases h1 : (cellB b.board fr fc).toLower = 'k' ∧ fc = 4 ∧ tc = 6
  · rw [if_pos h1, if_pos h1]
  · rw [if_neg h1, if_neg h1]
    by_cases h2 : (cellB b.board fr fc).toLower = 'k' ∧ fc = 4 ∧ tc = 2
    · rw [if_pos h2, if_pos h2]
    · rw [if_neg h2, if_neg h2]
      by_cases h3 : (cellB b.board fr fc).toLower = 'p'
      · rw [if_pos h3, if_pos h3]
        by_cases h4 : (cellB b.board tr tc ≠ '.') ∨
            ((cellB b.board fr fc).toLower = 'p' ∧ b.ep ≠ "-" ∧ tc = epCol b ∧
              tr = 8 - epRank b)
        · rw [if_pos h4, if_pos h4]
          cases promo <;> simp [promoSuffix, fileCharOf]
        · rw [if_neg h4, if_neg h4]
          cases promo <;> simp [promoSuffix]
      · rw [if_neg h3, if_neg h3]
        rw [← disambig_eq b ((cellB b.board fr fc).toLower) fr fc tr tc promo legal]
        by_cases h4 : (cellB b.board tr tc ≠ '.') ∨
            ((cellB b.board fr fc).toLower = 'p' ∧ b.ep ≠ "-" ∧ tc = epCol b ∧
              tr = 8 - epRank b)
        · rw [if_pos h4]
          cases promo <;> simp [promoSuffix]
        · rw [if_neg h4]
          cases promo <;> simp [promoSuffix]

theorem applyChain_append (b : Board) (xs ys : List String) :
    applyChain b (xs ++ ys) = (applyChain b xs).bind (fun b' => applyChain b' ys) := by
  induction xs generalizing b with
  | nil => rfl
  | cons u us ih =>
    rw [List.cons_append, applyChain, applyChain]
    cases apply_uci b u with
    | ok out => exact ih out.2.2
    | error e => rfl

theorem applyChain_wf : ∀ (us : List String) (b b' : Board), wf b →
    applyChain b us = some b' → wf b' := by
  intro us
  induction us with
  | nil =>
    intro b b' hwf h
    rw [applyChain] at h
    injection h with h
    exact h ▸ hwf
  | cons u us ih =>
    intro b b' hwf h
    rw [applyChain] at h
    cases happ : apply_uci b u with
    | ok out =>
      rw [happ] at h
      exact ih out.2.2 b' (wf_apply_uci b u out hwf happ) h
    | error e => rw [happ] at h; simp at h

/-- Membership in `legal_movesT` implies the generated piece belongs to the
moving side. -/
theorem mem_legal_side (b : Board) (t : String) (m : Move) (h : m ∈ legal_movesT b t) :
    ((t = "w") ↔ (cellB b.board m.1 m.2.1).isUpper = true) := by
  simp only [legal_movesT, List.mem_flatMap, List.mem_range] at h
  obtain ⟨r, hr, c, hc, hm⟩ := h
  by_cases hdot : cellB b.board r c = '.'
  · rw [if_pos hdot] at hm; simp at hm
  · rw [if_neg hdot] at hm
    by_cases hside : ((t = "w") ↔ (cellB b.board ↑r ↑c).isUpper = true)
    · obtain ⟨h1, h2, -, -⟩ := pseudo_spec b r c m (by
        rw [if_pos hside] at hm
        exact (List.mem_filter.1 hm).1)
      rw [h1, h2]
      exact hside
    · rw [if_neg hside] at hm
      simp at hm

/-- Decomposition of king-branch moves: a single step by a `KING_D` offset, or
a castle generated under its full guard (in particular with the wing's flag
present in the castling field). -/
theorem kingMoves_mem_cases (b : Board) (r c : Int) (piece : Char) (turn : String)
    (m : Move) (hm : m ∈ kingMoves b r c piece turn) :
    (∃ dd ∈ KING_D, m = (r, c, r + dd.1, c + dd.2, (none : Option Char))) ∨
    (m = (r, c, (if turn = "w" then (7:Int) else 0), 4 + 2, (none : Option Char)) ∧
      ((if b.castling = "" then "" else b.castling).data.contains
        (if turn = "w" then 'K' else 'k')) = true) ∨
    (m = (r, c, (if turn = "w" then (7:Int) else 0), 4 - 2, (none : Option Char)) ∧
      ((if b.castling = "" then "" else b.castling).data.contains
        (if turn = "w" then 'Q' else 'q')) = true) := by
  simp only [kingMoves, List.mem_append, List.mem_flatMap, List.mem_ite_nil_right] at hm
  rcases hm with ⟨dd, hdd, -, hmem⟩ | ⟨-, hm2⟩
  · simp only [List.mem_singleton] at hmem
    exact Or.inl ⟨dd, hdd, hmem⟩
  · rcases hm2 with ⟨hcond, hmem⟩ | ⟨hcond, hmem⟩
    · simp only [List.mem_singleton] at hmem
      refine Or.inr (Or.inl ⟨hmem, ?_⟩)
      simp only [Bool.and_eq_true] at hcond
      exact hcond.1.1.1.1.1
    · simp only [List.mem_singleton] at hmem
      refine Or.inr (Or.inr ⟨hmem, ?_⟩)
      simp only [Bool.and_eq_true] at hcond
      exact hcond.1.1.1.1.1.1

/-- A castle-shaped legal move forces the wing's flag to be present in the
castling field. -/
theorem castleLegal_flag (b : Board) (s : String) (kingside : Bool)
    (h : castleLegal b s kingside) : flagChar s kingside ∈ b.castling.data := by
  obtain ⟨hmem, hcell⟩ := h
  obtain ⟨r, c, hr8, hc8, hpse, -⟩ := mem_legal_movesT b s _ hmem
  obtain ⟨h1, h2, -, -⟩ := pseudo_spec b r c _ hpse
  simp only at h1 h2
  rw [pseudo] at hpse
  rw [h1, h2] at hcell
  rw [if_neg (by
    rw [hcell]
    unfold kingChar
    split_ifs <;> decide)] at hpse
  rw [hcell] at hpse
  by_cases hs : s = "w"
  · rw [hs] at hpse ⊢
    simp only [kingChar, if_pos rfl] at hpse
    rw [if_neg (by decide), if_neg (by decide), if_neg (by decide), if_neg (by decide),
      if_neg (by decide), if_pos (by decide)] at hpse
    have hcases := kingMoves_mem_cases b r c 'K' (if 'K'.isUpper then "w" else "b") _ hpse
    rw [show (if 'K'.isUpper then "w" else "b") = "w" by decide] at hcases
    rcases hcases with ⟨dd, hdd, heq⟩ | ⟨heq, hflag⟩ | ⟨heq, hflag⟩
    · exfalso
      have htc : castleDest kingside = ↑c + dd.2 := by
        have := congrArg (fun m : Move => m.2.2.2.1) heq
        simpa using this
      have hcc : (4 : Int) = ↑c := by
        have := congrArg (fun m : Move => m.2.1) heq
        simpa using this
      unfold castleDest at htc
      fin_cases hdd <;> rcases kingside <;> simp_all <;> omega
    · -- kingside castle shape
      have htc : castleDest kingside = 4 + 2 := by
        have := congrArg (fun m : Move => m.2.2.2.1) heq
        simpa using this
      have hk : kingside = true := by
        rcases kingside with _ | _
        · exfalso; unfold castleDest at htc; simp at htc
        · rfl
      subst hk
      simp only [flagChar, if_pos rfl]
      by_cases hce : b.castling = ""
      · rw [if_pos hce] at hflag; simp at hflag
      · rw [if_neg hce] at hflag
        simpa using hflag
    · have htc : castleDest kingside = 4 - 2 := by
        have := congrArg (fun m : Move => m.2.2.2.1) heq
        simpa using this
      have hk : kingside = false := by
        rcases kingside with _ | _
        · rfl
        · exfalso; unfold castleDest at htc; simp at htc
      subst hk
      simp only [flagChar, if_pos rfl]
      by_cases hce : b.castling = ""
      · rw [if_pos hce] at hflag; simp at hflag
      · rw [if_neg hce] at hflag
        simpa using hflag
  · simp only [kingChar, if_neg hs] at hpse
    rw [if_neg (by decide), if_neg (by decide), if_neg (by decide), if_neg (by decide),
      if_neg (by decide), if_pos (by decide)] at hpse
    have hcases := kingMoves_mem_cases b r c 'k' (if 'k'.isUpper then "w" else "b") _ hpse
    rw [show (if 'k'.isUpper then "w" else "b") = "b" by decide] at hcases
    rcases hcases with ⟨dd, hdd, heq⟩ | ⟨heq, hflag⟩ | ⟨heq, hflag⟩
    · exfalso
      have htc : castleDest kingside = ↑c + dd.2 := by
        have := congrArg (fun m : Move => m.2.2.2.1) heq
        simpa using this
      have hcc : (4 : Int) = ↑c := by
        have := congrArg (fun m : Move => m.2.1) heq
        simpa using this
      unfold castleDest at htc
      fin_cases hdd <;> rcases kingside <;> simp_all <;> omega
    · have htc : castleDest kingside = 4 + 2 := by
        have := congrArg (fun m : Move => m.2.2.2.1) heq
        simpa using this
      have hk : kingside = true := by
        rcases kingside with _ | _
        · exfalso; unfold castleDest at htc; simp at htc
        · rfl
      subst hk
      simp only [flagChar, if_neg hs]
      rw [show (if "b" = "w" then 'K' else 'k') = 'k' by decide] at hflag
      by_cases hce : b.castling = ""
      · rw [if_pos hce] at hflag; simp at hflag
      · rw [if_neg hce] at hflag
        simpa using hflag
    · have htc : castleDest kingside = 4 - 2 := by
        have := congrArg (fun m : Move => m.2.2.2.1) heq
        simpa using this
      have hk : kingside = false := by
        rcases kingside with _ | _
        · rfl
        · exfalso; unfold castleDest at htc; simp at htc
      subst hk
      simp only [flagChar, if_neg hs]
      rw [show (if "b" = "w" then 'Q' else 'q') = 'q' by decide] at hflag
      by_cases hce : b.castling = ""
      · rw [if_pos hce] at hflag; simp at hflag
      · rw [if_neg hce] at hflag
        simpa using hflag

theorem eraseAtFold_not_mem (r c : Int) (x : Char) (cas : List Char) (h : x ∉ cas) :
    x ∉ eraseAtFold r c cas := by
  intro hx
  exact eraseAtFold_pred (fun y => y ≠ x) r c cas
    (fun y hy he => h (he ▸ hy)) x hx rfl

theorem flagChar_ne_dash (s : String) (kingside : Bool) : flagChar s kingside ≠ '-' := by
  unfold flagChar
  split_ifs <;> decide

/-- Removing the wing's rook from its home square erases the wing's flag. -/
theorem eraseAtFold_removes (s : String) (kingside : Bool) (cas : List Char)
    (hnd : cas.Nodup) :
    flagChar s kingside ∉ eraseAtFold (homeRank s) (rookHomeCol kingside) cas := by
  by_cases hs : s = "w" <;> rcases kingside with _ | _ <;>
    simp only [eraseAtFold, casPairs, List.foldl, homeRank, rookHomeCol, flagChar, hs] <;>
    norm_num <;>
    split_ifs with hin <;>
    first
    | exact fun hm => ((hnd.mem_erase_iff).1 hm).1 rfl
    | exact hin

/-- Applying a trigger move (king leaves home, or the wing's rook leaves its
home) removes the wing's castling flag. -/
theorem trigger_flag_removed (b : Board) (s : String) (kingside : Bool)
    (fr fc tr tc : Int) (promo : Option Char) (hnd : b.castling.data.Nodup)
    (hside : (s = "w") ↔ (b.turn = "w"))
    (htr : triggerMove b s kingside fr fc) :
    flagChar s kingside ∉ (apply_raw b fr fc tr tc promo).castling.data := by
  have hcc : (apply_raw b fr fc tr tc promo).castling
      = (if casAfter b fr fc tr tc = [] then "-" else String.mk (casAfter b fr fc tr tc)) :=
    rfl
  rw [hcc]
  by_cases hnil : casAfter b fr fc tr tc = []
  · rw [if_pos hnil]
    intro hmem
    exact flagChar_ne_dash s kingside (by simpa using hmem)
  · rw [if_neg hnil]
    show flagChar s kingside ∉ casAfter b fr fc tr tc
    have hc0nd : ((if b.castling = "" then "" else b.castling).data.filter
        (fun x => x ≠ '-')).Nodup := by
      by_cases hce : b.castling = ""
      · rw [if_pos hce]; simp
      · rw [if_neg hce]; exact hnd.filter _
    unfold casAfter
    set c0 := ((if b.castling = "" then "" else b.castling).data.filter (fun x => x ≠ '-'))
      with hc0
    dsimp only
    rcases htr with ⟨hfr, hfc, hcell⟩ | ⟨hfr, hfc, hcell⟩
    · -- king trigger
      have hp : (cellB b.board fr fc).toLower = 'k' := by
        rw [hcell]
        unfold kingChar
        split_ifs <;> decide
      rw [if_pos hp]
      rw [if_neg (by rw [hp]; decide)]
      apply eraseAtFold_not_mem
      intro hmem
      rcases List.mem_filter.1 hmem with ⟨-, hkeep⟩
      have hflag : flagChar s kingside ∈ (if b.turn = "w" then ['K','Q'] else ['k','q']) := by
        unfold flagChar
        by_cases hsw : s = "w"
        · rw [if_pos hsw, if_pos (hside.1 hsw)]
          rcases kingside with _ | _ <;> simp
        · rw [if_neg hsw, if_neg (fun hbw => hsw (hside.2 hbw))]
          rcases kingside with _ | _ <;> simp
      simp only [decide_eq_true_eq] at hkeep
      exact hkeep hflag
    · -- rook trigger
      have hp : (cellB b.board fr fc).toLower = 'r' := by
        rw [hcell]
        unfold rookChar
        split_ifs <;> decide
      have hpk : ¬ (cellB b.board fr fc).toLower = 'k' := by rw [hp]; decide
      rw [if_neg hpk, if_pos hp, hfr, hfc]
      apply eraseAtFold_not_mem
      exact eraseAtFold_removes s kingside c0 hc0nd

/-- An absent flag stays absent across any `_apply_raw`. -/
theorem flag_stays_out (b : Board) (s : String) (kingside : Bool)
    (fr fc tr tc : Int) (promo : Option Char)
    (h : flagChar s kingside ∉ b.castling.data) :
    flagChar s kingside ∉ (apply_raw b fr fc tr tc promo).castling.data := by
  have hcc : (apply_raw b fr fc tr tc promo).castling
      = (if casAfter b fr fc tr tc = [] then "-" else String.mk (casAfter b fr fc tr tc)) :=
    rfl
  rw [hcc]
  by_cases hnil : casAfter b fr fc tr tc = []
  · rw [if_pos hnil]
    intro hmem
    exact flagChar_ne_dash s kingside (by simpa using hmem)
  · rw [if_neg hnil]
    intro hmem
    exact h (mem_casAfter b fr fc tr tc _ hmem).1

/-- Shape of a successful `apply_uci`: the parsed move (possibly with the
queen-promotion default applied) is legal, and the resulting core fields are
those of `_apply_raw`. -/
theorem apply_uci_ok_shape (b : Board) (uci : String) (out : String × Option Char × Board)
    (h : apply_uci b uci = .ok out) :
    ∃ fr fc tr tc promo0 promo, parseUci uci = .ok (fr, fc, tr, tc, promo0) ∧
      (fr, fc, tr, tc, promo) ∈ legal_moves b ∧
      out.2.2.board = (apply_raw b fr fc tr tc promo).board ∧
      out.2.2.turn = (apply_raw b fr fc tr tc promo).turn ∧
      out.2.2.castling = (apply_raw b fr fc tr tc promo).castling ∧
      out.2.2.ep = (apply_raw b fr fc tr tc promo).ep := by
  unfold apply_uci at h
  cases hp : parseUci uci with
  | error e => rw [hp] at h; simp at h
  | ok q =>
    obtain ⟨fr, fc, tr, tc, promo0⟩ := q
    rw [hp] at h
    dsimp only at h
    split_ifs at h with h1 h2
    · have hout : out = applyCore b uci fr fc tr tc promo0 (legal_moves b) := by
        injection h with h'
        exact h'.symm
      subst hout
      exact ⟨fr, fc, tr, tc, promo0, promo0, rfl, h1, applyCore_board .., applyCore_turn ..,
        applyCore_castling .., applyCore_ep ..⟩
    · have hout : out = applyCore b uci fr fc tr tc (some 'q') (legal_moves b) := by
        injection h with h'
        exact h'.symm
      subst hout
      exact ⟨fr, fc, tr, tc, promo0, some 'q', rfl, h2.2, applyCore_board ..,
        applyCore_turn .., applyCore_castling .., applyCore_ep ..⟩

/-- Once a wing's flag is gone it never reappears along any move chain. -/
theorem chain_flag (s : String) (kingside : Bool) : ∀ (us : List String) (b b' : Board),
    wf b → flagChar s kingside ∉ b.castling.data → applyChain b us = some b' →
    flagChar s kingside ∉ b'.castling.data := by
  intro us
  induction us with
  | nil =>
    intro b b' _ hout h
    rw [applyChain] at h
    injection h with h
    exact h ▸ hout
  | cons u us ih =>
    intro b b' hwf hout h
    rw [applyChain] at h
    cases happ : apply_uci b u with
    | error e => rw [happ] at h; simp at h
    | ok out =>
      rw [happ] at h
      obtain ⟨fr, fc, tr, tc, promo0, promo, -, -, -, -, hc, -⟩ :=
        apply_uci_ok_shape b u out happ
      refine ih out.2.2 b' (wf_apply_uci b u out hwf happ) ?_ h
      rw [hc]
      exact flag_stays_out b s kingside fr fc tr tc promo hout

/-- Core of the castling-rights claim: once the side's king leaves its home
square, or the wing's rook leaves its home square, that wing's castling move
never again appears in the side's legal-move set for the rest of the game. -/
theorem castling_never_returns (b0 : Board) (pre mid : List String) (uci : String)
    (s : String) (kingside : Bool) (fr fc tr tc : Int) (promo0 : Option Char)
    (hwf : wf b0)
    (hparse : parseUci uci = .ok (fr, fc, tr, tc, promo0))
    (htr : triggerOpt s kingside fr fc (applyChain b0 pre)) :
    castleFreeOpt s kingside (applyChain b0 (pre ++ uci :: mid)) := by
  cases hpre : applyChain b0 pre with
  | none => rw [hpre] at htr; exact htr.elim
  | some b1 =>
    rw [hpre] at htr
    have hwf1 : wf b1 := applyChain_wf pre b0 b1 hwf hpre
    rw [applyChain_append, hpre, Option.some_bind, applyChain]
    cases happ : apply_uci b1 uci with
    | error e => exact trivial
    | ok out =>
      obtain ⟨fr', fc', tr', tc', promo0', promo', hp', hleg', -, -, hc, -⟩ :=
        apply_uci_ok_shape b1 uci out happ
      rw [hparse] at hp'
      injection hp' with hp'
      obtain ⟨h1, h2, h3, h4, h5⟩ : fr = fr' ∧ fc = fc' ∧ tr = tr' ∧ tc = tc' ∧
          promo0 = promo0' := by
        simpa using hp'
      subst h1
      subst h2
      subst h3
      subst h4
      subst h5
      have hnd1 : b1.castling.data.Nodup := by
        rcases hwf1.2.2.2.1 with hcd | ⟨-, hcd, -⟩
        · rw [hcd]; decide
        · exact hcd
      have hside : (s = "w") ↔ (b1.turn = "w") := by
        have hup := mem_legal_side b1 b1.turn _ hleg'
        dsimp only at hup
        rcases htr with ⟨-, -, hcell⟩ | ⟨-, -, hcell⟩ <;>
          rw [hcell] at hup <;>
          by_cases hsw : s = "w" <;>
          simp only [kingChar, rookChar, hsw, reduceIte] at hup <;>
          simp_all
      have hgone : flagChar s kingside ∉ out.2.2.castling.data := by
        rw [hc]
        exact trigger_flag_removed b1 s kingside fr fc tr tc promo' hnd1 hside htr
      have hwf2 : wf out.2.2 := wf_apply_uci b1 uci out hwf1 happ
      dsimp only
      cases hmid : applyChain out.2.2 mid with
      | none => exact trivial
      | some b3 =>
        show ¬ castleLegal b3 s kingside
        intro hcl
        exact chain_flag s kingside mid out.2.2 b3 hwf2 hgone hmid
          (castleLegal_flag b3 s kingside hcl)

set_option maxHeartbeats 40000000 in
/-- C1: from the standard starting position `legal_moves` yields exactly 20
moves, and summing the legal-reply counts over all of them gives 400
(perft(1) = 20, perft(2) = 400). -/
theorem C1_perft_start_counts :
    (legal_moves Board.new).length = 20 ∧ perft 2 Board.new = 400 := by decide

/-- C2 counterexample: the promotionless UCI move `e7e8` is not in the
legal-move set of `cexPromoBoard` (only the four promotion moves are), yet
`apply_uci` accepts it (applying it as a queen promotion) instead of failing
with an illegal-move error. -/
theorem C2_counterexample_queen_default :
    ((8 - 7, 4, 8 - 8, 4, (none : Option Char)) ∉ legal_moves cexPromoBoard) ∧
      exceptIsOk (apply_uci cexPromoBoard ("e7e8")) = true := by decide

/-- C2 (amended): for every position and well-formed move not in the
legal-move set, `apply_uci` fails with an illegal-move error and leaves the
position (and its serialization) unchanged — except that a promotionless
move whose queen-promotion variant is legal is accepted and applied as a
queen promotion. -/
theorem C2_illegal_move_rejected (b : Board) (uci : String) (fr fc tr tc : Int)
    (promo : Option Char) (hp : parseUci uci = .ok (fr, fc, tr, tc, promo))
    (hnl : (fr, fc, tr, tc, promo) ∉ legal_moves b)
    (hnq : ¬ (promo = none ∧ (fr, fc, tr, tc, some 'q') ∈ legal_moves b)) :
    apply_uci b uci = .error ("Illegal move: " ++ uci) ∧ applyState b uci = b ∧
      to_fen (applyState b uci) = to_fen b := by
  obtain ⟨h1, h2⟩ := apply_uci_illegal b uci fr fc tr tc promo hp hnl hnq
  exact ⟨h1, h2, by rw [h2]⟩

theorem C2_illegal_move_rejected_witness :
    apply_uci Board.new ("e2e5") = .error ("Illegal move: " ++ "e2e5") ∧
      applyState Board.new ("e2e5") = Board.new ∧
      to_fen (applyState Board.new ("e2e5")) = to_fen Board.new :=
  C2_illegal_move_rejected Board.new ("e2e5") 6 4 3 4 none rfl (by decide)
    (by decide)

/-- C3: `game_result` returns exactly the specification's classification —
ongoing / checkmate (winner the side not to move) / stalemate / fifty-move
rule (half-move clock ≥ 100) / threefold repetition (count ≥ 3) /
insufficient material (bare kings, or bare king against a single knight or
single bishop only) — evaluated in that priority order. -/
theorem C3_game_result_classification : ∀ b : Board, game_result b = classifySpec b :=
  game_result_eq_classifySpec

/-- C4: for every reachable position, loading back its own FEN yields a board
equal in every field. -/
theorem C4_fen_round_trip : ∀ p : Board, Reachable p → load_fen p (to_fen p) = p :=
  fun p h => load_fen_to_fen p (reachable_wf p h)

theorem C4_fen_round_trip_witness : load_fen Board.new (to_fen Board.new) = Board.new :=
  C4_fen_round_trip Board.new Reachable.start

/-- C5: after a move is applied the en-passant target is set iff that move was
a two-square pawn advance (so any following move clears it again), and then it
names the passed-over square; concretely `e3` after 1.e4, and `-` after
1.e4 e5 2.Nf3 Nc6. -/
theorem C5_en_passant_target :
    (∀ (b : Board) (fr fc tr tc : Int) (promo : Option Char),
      ((apply_raw b fr fc tr tc promo).ep ≠ "-" ↔
        ((cellB b.board fr fc).toLower = 'p' ∧ (fr - tr).natAbs = 2)) ∧
      (((cellB b.board fr fc).toLower = 'p' ∧ (fr - tr).natAbs = 2) →
        (apply_raw b fr fc tr tc promo).ep
          = String.mk (Char.ofNat (97 + fc).toNat :: intRepr (8 - Int.fdiv (fr + tr) 2)))) ∧
    (applyChain Board.new [("e2e4")]).map Board.ep = some ("e3") ∧
    (applyChain Board.new [("e2e4"), ("e7e5"), ("g1f3"), ("b8c6")]).map Board.ep
      = some ("-") := by
  refine ⟨fun b fr fc tr tc promo => apply_raw_ep_spec b fr fc tr tc promo, by decide,
    by decide⟩

theorem C5_en_passant_target_witness :
    ((cellB Board.new.board 6 4).toLower = 'p' ∧ ((6 : Int) - 4).natAbs = 2) ∧
      (apply_raw Board.new 6 4 4 4 none).ep = ("e3") :=
  ⟨by decide, (C5_en_passant_target.1 Board.new 6 4 4 4 none).2 (by decide)⟩

/-- C6: once a side's king has moved from its home square or the wing's rook
has moved from its home square, castling on that wing never again appears in
that side's legal-move set for the remainder of the game. -/
theorem C6_castling_rights_monotone (b0 : Board) (pre mid : List String) (uci : String)
    (s : String) (kingside : Bool) (fr fc tr tc : Int) (promo0 : Option Char)
    (hwf : wf b0) (hparse : parseUci uci = .ok (fr, fc, tr, tc, promo0))
    (htr : triggerOpt s kingside fr fc (applyChain b0 pre)) :
    castleFreeOpt s kingside (applyChain b0 (pre ++ uci :: mid)) :=
  castling_never_returns b0 pre mid uci s kingside fr fc tr tc promo0 hwf hparse htr

theorem C6_castling_rights_monotone_witness :
    wf Board.new ∧ parseUci ("e1e2") = .ok (7, 4, 6, 4, (none : Option Char)) ∧
      triggerOpt "w" true 7 4 (applyChain Board.new [("e2e4"), ("e7e5")]) ∧
      castleFreeOpt "w" true
        (applyChain Board.new ([("e2e4"), ("e7e5")] ++ ("e1e2") :: [("e8e7")])) :=
  ⟨by decide, rfl, by decide,
    C6_castling_rights_monotone Board.new [("e2e4"), ("e7e5")] [("e8e7")] ("e1e2") "w"
      true 7 4 6 4 none (by decide) rfl (by decide)⟩

/-- C7: every SAN the engine renders is piece letter (omitted for pawns) +
minimal disambiguation among same-type same-destination same-promotion legal
moves (file, else rank, else both) + capture marker + destination + promotion
suffix, with castling as `O-O`/`O-O-O`, and `apply_uci` appends the
check/checkmate suffix; concretely two rooks on `a1`/`h1` reaching `d1` give
`Rad1`, and on `a1`/`a3` reaching `a2` give `R1a2`. -/
theorem C7_san_format :
    (∀ (b : Board) (fr fc tr tc : Int) (promo : Option Char) (legal : List Move),
      build_san b fr fc tr tc promo legal = sanSpecCore b fr fc tr tc promo legal) ∧
    (∀ (b : Board) (u : String) (fr fc tr tc : Int) (promo : Option Char)
      (legal : List Move),
      (applyCore b u fr fc tr tc promo legal).1
        = sanSpecCore b fr fc tr tc promo legal
            ++ checkSuffix (applied b fr fc tr tc promo)) ∧
    (apply_uci rookBoardA ("a1d1")).toOption.map (fun r => r.1) = some ("Rad1") ∧
    (apply_uci rookBoardB ("a1a2")).toOption.map (fun r => r.1) = some ("R1a2") := by
  refine ⟨build_san_eq_spec, ?_, by decide, by decide⟩
  intro b u fr fc tr tc promo legal
  rw [applyCore_san, build_san_eq_spec]

/-- C8: `get_best_move` returns `none`, without raising, when the trace holds
no usable move token (sentinels included), when the process is found dead
mid-search, or when the deadline passes; and `start` on a process that never
responds fails with the handshake-timeout error, distinct from
executable-not-found. -/
theorem C8_engine_client_failures :
    (∀ (ready alive : Bool) (evs : List QEvent), noUsableLine evs →
      get_best_move ready alive evs = none) ∧
    (∀ (ready alive : Bool) (pre rest : List QEvent), noBreakLine pre →
      get_best_move ready alive (pre ++ QEvent.timedOut true :: rest) = none) ∧
    (∀ evs1 evs2 : List QEvent, noGotLine evs1 →
      start none evs1 evs2 = .error .noUciok) ∧
    StartError.noUciok ≠ StartError.engineNotFound := by
  refine ⟨?_, ?_, ?_, by decide⟩
  · intro ready alive evs h
    unfold get_best_move
    split_ifs
    · rfl
    · exact bestmove_scan_none evs h
  · intro ready alive pre rest h
    unfold get_best_move
    split_ifs
    · rfl
    · exact bestmove_scan_dead pre rest h
  · intro evs1 evs2 h
    unfold start
    rw [wait_scan_no_lines ("uciok") evs1 h]
    rfl

theorem C8_engine_client_failures_witness :
    noUsableLine [QEvent.got ("info depth 1"), QEvent.got ("bestmove (none)")] ∧
      get_best_move true true
        [QEvent.got ("info depth 1"), QEvent.got ("bestmove (none)")] = none ∧
      noGotLine [QEvent.timedOut false, QEvent.timedOut false] ∧
      start none [QEvent.timedOut false, QEvent.timedOut false] [] = .error .noUciok :=
  ⟨by decide, C8_engine_client_failures.1 true true _ (by decide), by decide,
    C8_engine_client_failures.2.2.1 _ [] (by decide)⟩

/-- C9: `stop` never raises (it is a total function in this model, all
shutdown failures being swallowed) and afterwards `alive` is `false`, from
every client state. -/
theorem C9_stop_never_raises : ∀ (e : EngineState) (shutdownFails : Bool),
    alive (stop e shutdownFails) = false := by
  intro e f
  unfold stop
  cases hp : e.process with
  | some p => rfl
  | none =>
    unfold alive
    rw [hp]

/-- C10: a side with no king on the board gets `find_king = none` and
`in_check = false` (no exception), and legal-move enumeration and game-end
classification still complete normally on such boards. -/
theorem C10_kingless_side :
    (∀ (b : Board) (t : String), kingAbsent b t →
      find_king b t = none ∧ in_checkT b t = false) ∧
    (legal_moves kinglessBoard).length = 3 ∧
    game_result kinglessBoard = (true, "1/2-1/2", "Draw by insufficient material", none) := by
  refine ⟨fun b t h => kingless_spec b t h, by decide, by decide⟩

theorem C10_kingless_side_witness :
    kingAbsent kinglessBoard "b" ∧
      (find_king kinglessBoard "b" = none ∧ in_checkT kinglessBoard "b" = false) :=
  ⟨by decide, C10_kingless_side.1 kinglessBoard "b" (by decide)⟩
